import Mathlib

/-!
# Verification of the latcha challenge engine

A shallow embedding of the `latcha` CAPTCHA engine (TypeScript) in Lean 4:
the single-use challenge store and verifier (`verifier.ts`), the answer
normalization and tolerance scoring, the eval harness scoring
(`runner.ts` / `prompts.ts`), and the option/answer construction of the
challenge generators.

JavaScript strings are modelled as `List Char`; `trim`, `toUpperCase`,
`split`, `join` and default `sort` are modelled character-faithfully on the
ASCII range (the repository only ever feeds ASCII answers through them).
`Number(...)` is modelled for decimal literals (sign, integer/fraction
digits, exponent); exotic literal forms (hex, `Infinity`) are outside the
model.  Randomness (`crypto.getRandomValues`) is an explicit stream of
draws; `Math.random()` draws are explicit rationals in `[0,1)`.
-/

namespace Latcha

/-- JavaScript strings, modelled as lists of characters. -/
abbrev JStr := List Char

/-- Whitespace recognised by `String.prototype.trim` (ASCII part). -/
def jsWhitespace (c : Char) : Bool :=
  c = ' ' || c = '\t' || c = '\n' || c = '\r' || c = '\x0b' || c = '\x0c'

/-- The lowercase ASCII letters with their uppercase counterparts. -/
def lowerUpperPairs : List (Char × Char) :=
  [('a','A'), ('b','B'), ('c','C'), ('d','D'), ('e','E'), ('f','F'),
   ('g','G'), ('h','H'), ('i','I'), ('j','J'), ('k','K'), ('l','L'),
   ('m','M'), ('n','N'), ('o','O'), ('p','P'), ('q','Q'), ('r','R'),
   ('s','S'), ('t','T'), ('u','U'), ('v','V'), ('w','W'), ('x','X'),
   ('y','Y'), ('z','Z')]

/-- Character-level model of `String.prototype.toUpperCase` (ASCII range:
only the letters `a`–`z` change). -/
def upChar (c : Char) : Char :=
  ((lowerUpperPairs.find? (fun p => p.1 = c)).map (·.2)).getD c

/-- `s.toUpperCase()`. -/
def jsUpper (s : JStr) : JStr := s.map upChar

/-- `s.trim()`: drop whitespace from both ends. -/
def jsTrim (s : JStr) : JStr :=
  ((s.dropWhile jsWhitespace).reverse.dropWhile jsWhitespace).reverse

theorem upChar_eq_self_of_not_lower {c : Char}
    (h : c ∉ lowerUpperPairs.map Prod.fst) : upChar c = c := by
  have hf : lowerUpperPairs.find? (fun p => p.1 = c) = none := by
    rw [List.find?_eq_none]
    intro p hp
    simp only [decide_eq_true_eq]
    intro hc
    exact h (hc ▸ List.mem_map_of_mem Prod.fst hp)
  rw [upChar, hf]
  rfl

theorem upChar_upChar (c : Char) : upChar (upChar c) = upChar c := by
  by_cases h : c ∈ lowerUpperPairs.map Prod.fst
  · fin_cases h <;> decide
  · simp [upChar_eq_self_of_not_lower h]

theorem jsWhitespace_upChar (c : Char) : jsWhitespace (upChar c) = jsWhitespace c := by
  by_cases h : c ∈ lowerUpperPairs.map Prod.fst
  · fin_cases h <;> decide
  · rw [upChar_eq_self_of_not_lower h]

theorem jsUpper_jsUpper (s : JStr) : jsUpper (jsUpper s) = jsUpper s := by
  simp [jsUpper, List.map_map, Function.comp_def, upChar_upChar]

theorem jsTrim_jsUpper (s : JStr) : jsTrim (jsUpper s) = jsUpper (jsTrim s) := by
  have hdw : ∀ t : JStr, (t.map upChar).dropWhile jsWhitespace
      = (t.dropWhile jsWhitespace).map upChar := by
    intro t
    rw [List.dropWhile_map]
    have hcomp : (jsWhitespace ∘ upChar) = jsWhitespace := funext jsWhitespace_upChar
    rw [hcomp]
  simp only [jsTrim, jsUpper]
  rw [hdw, ← List.map_reverse, hdw, List.map_reverse]

theorem jsTrim_nil : jsTrim ([] : JStr) = [] := rfl

theorem jsUpper_nil : jsUpper ([] : JStr) = [] := rfl

/-- Any character of `jsTrim s` is a character of `s`. -/
theorem mem_of_mem_jsTrim {c : Char} {s : JStr} (h : c ∈ jsTrim s) : c ∈ s := by
  simp only [jsTrim, List.mem_reverse] at h
  have h₁ := List.dropWhile_subset (l := (s.dropWhile jsWhitespace).reverse) jsWhitespace h
  rw [List.mem_reverse] at h₁
  exact List.dropWhile_subset jsWhitespace h₁

/-- A string whose first and last characters are not whitespace is already
trimmed. -/
theorem jsTrim_eq_self_of_edges {s : JStr}
    (h₁ : ∀ c, s.head? = some c → jsWhitespace c = false)
    (h₂ : ∀ c, s.getLast? = some c → jsWhitespace c = false) :
    jsTrim s = s := by
  have hl : s.dropWhile jsWhitespace = s := by
    cases s with
    | nil => rfl
    | cons a t =>
      have := h₁ a rfl
      simp [List.dropWhile_cons, this]
  rw [jsTrim, hl]
  have hr : s.reverse.dropWhile jsWhitespace = s.reverse := by
    cases hs : s.reverse with
    | nil => rfl
    | cons a t =>
      have ha : s.getLast? = some a := by
        rw [List.getLast?_eq_head?_reverse, hs]
        rfl
      have := h₂ a ha
      simp [List.dropWhile_cons, this]
  rw [hr, List.reverse_reverse]

/-- The first character of `jsTrim s`, if any, is not whitespace. -/
theorem head?_jsTrim_not_ws {s : JStr} {c : Char}
    (h : (jsTrim s).head? = some c) : jsWhitespace c = false := by
  -- head of the final reverse = last of the inner dropWhile; that dropWhile
  -- is a suffix of the reverse of the left-trimmed string, whose last
  -- element is the head of the left-trimmed string.
  rw [jsTrim, List.head?_reverse] at h
  set u := (s.dropWhile jsWhitespace).reverse with hu
  obtain ⟨t, ht⟩ := List.dropWhile_suffix (l := u) jsWhitespace
  have hlast : u.getLast? = some c := by
    rw [← ht, List.getLast?_append, h]
    rfl
  rw [hu, List.getLast?_reverse] at hlast
  have h2 := List.head?_dropWhile_not jsWhitespace s
  rw [hlast] at h2
  exact h2

/-- The last character of `jsTrim s`, if any, is not whitespace. -/
theorem getLast?_jsTrim_not_ws {s : JStr} {c : Char}
    (h : (jsTrim s).getLast? = some c) : jsWhitespace c = false := by
  rw [jsTrim, List.getLast?_reverse] at h
  have := List.head?_dropWhile_not jsWhitespace (s.dropWhile jsWhitespace).reverse
  rw [h] at this
  simpa using this

theorem jsTrim_jsTrim (s : JStr) : jsTrim (jsTrim s) = jsTrim s :=
  jsTrim_eq_self_of_edges (fun _ h => head?_jsTrim_not_ws h)
    (fun _ h => getLast?_jsTrim_not_ws h)

/-- Strings of whitespace characters only. -/
def WsOnly (w : JStr) : Prop := ∀ c ∈ w, jsWhitespace c = true

instance (w : JStr) : Decidable (WsOnly w) := by
  unfold WsOnly
  infer_instance

theorem jsTrim_pad {s w₁ w₂ : JStr} (h₁ : WsOnly w₁) (h₂ : WsOnly w₂) :
    jsTrim (w₁ ++ s ++ w₂) = jsTrim s := by
  have hleft : ∀ (w t : JStr), WsOnly w → (w ++ t).dropWhile jsWhitespace
      = t.dropWhile jsWhitespace := by
    intro w t hw
    exact List.dropWhile_append_of_pos (fun a ha => hw a ha)
  rw [List.append_assoc, jsTrim, hleft _ _ h₁]
  rcases hsd : (s ++ w₂).dropWhile jsWhitespace with _ | ⟨a, r⟩
  · -- everything in s ++ w₂ is whitespace, so s is all whitespace as well
    have hall : ∀ c ∈ s ++ w₂, jsWhitespace c = true := by
      have := List.dropWhile_eq_nil_iff (p := jsWhitespace) (l := s ++ w₂)
      rw [hsd] at this
      simpa using this.mp rfl
    have hs : s.dropWhile jsWhitespace = [] := by
      rw [List.dropWhile_eq_nil_iff]
      intro x hx
      exact hall x (List.mem_append_left _ hx)
    simp [jsTrim, hs]
  · -- the left-trim of s ++ w₂ is (left-trim of s) ++ w₂
    have hsplit : (s ++ w₂).dropWhile jsWhitespace
        = s.dropWhile jsWhitespace ++ w₂ := by
      rw [List.dropWhile_append]
      rcases hss : s.dropWhile jsWhitespace with _ | ⟨b, r₂⟩
      · exfalso
        have hall₂ : ∀ c ∈ s, jsWhitespace c = true := by
          have := List.dropWhile_eq_nil_iff (p := jsWhitespace) (l := s)
          rw [hss] at this
          simpa using this.mp rfl
        have : (s ++ w₂).dropWhile jsWhitespace = [] := by
          rw [List.dropWhile_eq_nil_iff]
          intro x hx
          rcases List.mem_append.mp hx with hx | hx
          · exact hall₂ x hx
          · exact h₂ x hx
        rw [hsd] at this
        exact List.cons_ne_nil _ _ this
      · simp
    rw [← hsd, hsplit, jsTrim, List.reverse_append, hleft _ _ (by
      intro c hc
      exact h₂ c (List.mem_reverse.mp hc))]

/-! ## Joining and splitting on commas -/

/-- `parts.join(',')`. -/
def joinComma (parts : List JStr) : JStr := [','].intercalate parts

/-- `s.split(',')`. -/
def splitComma (s : JStr) : List JStr := s.splitOn ','

theorem joinComma_nil : joinComma [] = [] := rfl

theorem joinComma_single (m : JStr) : joinComma [m] = m := by
  simp [joinComma, List.intercalate]

theorem joinComma_cons_cons (m m₂ : JStr) (rest : List JStr) :
    joinComma (m :: m₂ :: rest) = m ++ ',' :: joinComma (m₂ :: rest) := by
  simp [joinComma, List.intercalate, List.flatten]

theorem splitComma_joinComma {parts : List JStr}
    (hc : ∀ m ∈ parts, ',' ∉ m) (hne : parts ≠ []) :
    splitComma (joinComma parts) = parts :=
  List.splitOn_intercalate parts ',' hc hne

/-- Every character of `joinComma parts` is a comma or a character of some
part. -/
theorem mem_of_mem_joinComma {c : Char} {parts : List JStr}
    (h : c ∈ joinComma parts) : c = ',' ∨ ∃ m ∈ parts, c ∈ m := by
  induction parts with
  | nil => simp [joinComma, List.intercalate] at h
  | cons m rest ih =>
    cases rest with
    | nil =>
      rw [joinComma_single] at h
      exact Or.inr ⟨m, by simp, h⟩
    | cons m₂ rest₂ =>
      rw [joinComma_cons_cons] at h
      rcases List.mem_append.mp h with hm | hm
      · exact Or.inr ⟨m, by simp, hm⟩
      · rcases List.mem_cons.mp hm with he | hj
        · exact Or.inl he
        · rcases ih hj with he | ⟨m', hm', hc'⟩
          · exact Or.inl he
          · exact Or.inr ⟨m', by simp [hm'], hc'⟩

theorem mem_joinComma_of_mem {c : Char} {m : JStr} {parts : List JStr}
    (hm : m ∈ parts) (hc : c ∈ m) : c ∈ joinComma parts := by
  induction parts with
  | nil => simp at hm
  | cons m₁ rest ih =>
    cases rest with
    | nil =>
      rw [joinComma_single]
      rcases List.mem_cons.mp hm with he | he
      · exact he ▸ hc
      · simp at he
    | cons m₂ rest₂ =>
      rw [joinComma_cons_cons]
      rcases List.mem_cons.mp hm with he | he
      · exact List.mem_append_left _ (he ▸ hc)
      · exact List.mem_append_right _ (List.mem_cons_of_mem _ (ih he))

/-- Edge characters of a comma-join: the first character, when present, is a
comma or the first character of a member part. -/
theorem head?_joinComma {c : Char} {parts : List JStr}
    (h : (joinComma parts).head? = some c) :
    c = ',' ∨ ∃ m ∈ parts, m.head? = some c := by
  induction parts with
  | nil => simp [joinComma, List.intercalate] at h
  | cons m rest ih =>
    cases rest with
    | nil =>
      rw [joinComma_single] at h
      exact Or.inr ⟨m, by simp, h⟩
    | cons m₂ rest₂ =>
      rw [joinComma_cons_cons] at h
      cases m with
      | nil =>
        simp only [List.nil_append, List.head?_cons, Option.some.injEq] at h
        exact Or.inl h.symm
      | cons a t =>
        simp only [List.cons_append, List.head?_cons, Option.some.injEq] at h
        exact Or.inr ⟨a :: t, by simp, by simp [h]⟩

theorem getLast?_joinComma {c : Char} {parts : List JStr}
    (h : (joinComma parts).getLast? = some c) :
    c = ',' ∨ ∃ m ∈ parts, m.getLast? = some c := by
  induction parts with
  | nil => simp [joinComma, List.intercalate] at h
  | cons m rest ih =>
    cases rest with
    | nil =>
      rw [joinComma_single] at h
      exact Or.inr ⟨m, by simp, h⟩
    | cons m₂ rest₂ =>
      rw [joinComma_cons_cons, List.getLast?_append, List.getLast?_cons] at h
      rcases hj2 : (joinComma (m₂ :: rest₂)).getLast? with _ | ⟨d₂⟩
      · rw [hj2] at h
        simp only [Option.getD_none, Option.or_some, Option.some.injEq] at h
        exact Or.inl h.symm
      · rw [hj2] at h
        simp only [Option.getD_some, Option.or_some, Option.some.injEq] at h
        subst h
        rcases ih hj2 with he | ⟨m', hm', hl'⟩
        · exact Or.inl he
        · exact Or.inr ⟨m', by simp [hm'], hl'⟩

theorem jsUpper_joinComma (parts : List JStr) :
    jsUpper (joinComma parts) = joinComma (parts.map jsUpper) := by
  induction parts with
  | nil => rfl
  | cons m rest ih =>
    cases rest with
    | nil => simp [joinComma_single]
    | cons m₂ rest₂ =>
      simp only [List.map_cons] at *
      rw [joinComma_cons_cons, joinComma_cons_cons, ← ih]
      simp only [jsUpper, List.map_append, List.map_cons]
      rfl

/-! ## A model of JavaScript `Number(...)` on decimal literals

`Number(s)` trims whitespace, maps the empty string to `0`, and parses an
optional sign, integer digits, an optional fraction and an optional decimal
exponent.  Exotic literal forms (hex/octal/binary prefixes, `Infinity`) are
outside this model; every string the engine feeds through `Number` is a
decimal form.  `none` models `NaN`. -/

def isDigit09 (c : Char) : Bool := decide ('0' ≤ c) && decide (c ≤ '9')

/-- `'1'`–`'9'`. -/
def isDigit19 (c : Char) : Bool := decide ('1' ≤ c) && decide (c ≤ '9')

def digitVal (c : Char) : ℕ := c.toNat - 48

def natOfDigits (ds : JStr) : ℕ := ds.foldl (fun acc c => 10 * acc + digitVal c) 0

/-- Strip an optional leading sign; `true` means negative. -/
def stripSign (t : JStr) : Bool × JStr :=
  match t with
  | '+' :: r => (false, r)
  | '-' :: r => (true, r)
  | _ => (false, t)

/-- Assemble a signed rational from a numerator/denominator pair. -/
def signedMkRat (neg : Bool) (n d : ℕ) : ℚ :=
  if neg then mkRat (-(n : ℤ)) d else mkRat n d

/-- Strip an optional exponent sign; `false` means negative. -/
def stripExpSign (r : JStr) : Bool × JStr :=
  match r with
  | '+' :: rr => (true, rr)
  | '-' :: rr => (false, rr)
  | _ => (true, r)

/-- Split an optional `.`‑fraction off the remainder. -/
def fracPart (u : JStr) : JStr × JStr :=
  match u with
  | '.' :: r => (r.takeWhile isDigit09, r.dropWhile isDigit09)
  | _ => ([], u)

def jsNumber (s : JStr) : Option ℚ :=
  let t := jsTrim s
  if t = [] then some 0 else
  let su := stripSign t
  let ip := su.2.takeWhile isDigit09
  let u₁ := su.2.dropWhile isDigit09
  let fu := fracPart u₁
  if ip = [] ∧ fu.1 = [] then none else
  -- mantissa = (P·10^k + F) / 10^k where P/F are the integer/fraction digits
  let P := natOfDigits ip
  let F := natOfDigits fu.1
  let k := fu.1.length
  match fu.2 with
  | [] => some (signedMkRat su.1 (P * 10 ^ k + F) (10 ^ k))
  | e :: r =>
    if e = 'e' ∨ e = 'E' then
      let es := stripExpSign r
      let ed := es.2.takeWhile isDigit09
      if ed = [] ∨ es.2.dropWhile isDigit09 ≠ [] then none
      else
        let ex := natOfDigits ed
        if es.1 then some (signedMkRat su.1 ((P * 10 ^ k + F) * 10 ^ ex) (10 ^ k))
        else some (signedMkRat su.1 (P * 10 ^ k + F) (10 ^ k * 10 ^ ex))
    else none

theorem digitVal_eq_zero {c : Char} (h09 : isDigit09 c = true)
    (h19 : isDigit19 c = false) : digitVal c = 0 := by
  simp only [isDigit09, Bool.and_eq_true, decide_eq_true_eq] at h09
  have h1 : 48 ≤ c.toNat := h09.1
  have h2 : c.toNat < 49 := by
    have hnot : ¬ ('1' : Char) ≤ c := by
      intro hle
      have htrue : isDigit19 c = true := by
        simp [isDigit19, hle, h09.2]
      simp [htrue] at h19
    simpa [Char.le_def] using hnot
  unfold digitVal
  omega

theorem natOfDigits_eq_zero {ds : JStr} (h : ∀ c ∈ ds, digitVal c = 0) :
    natOfDigits ds = 0 := by
  unfold natOfDigits
  induction ds with
  | nil => rfl
  | cons c t ih =>
    simp only [List.foldl_cons, h c (by simp), Nat.mul_zero, Nat.add_zero]
    exact ih (fun d hd => h d (List.mem_cons_of_mem _ hd))

theorem mem_stripSign {c : Char} {t : JStr} (h : c ∈ (stripSign t).2) : c ∈ t := by
  unfold stripSign at h
  split at h <;> simp_all

theorem signedMkRat_zero (neg : Bool) (d : ℕ) : signedMkRat neg 0 d = 0 := by
  cases neg <;> simp [signedMkRat]

/-- On a string with no characters `'1'`–`'9'`, the modelled `Number`
returns `NaN` or a zero value. -/
theorem jsNumber_of_no_digit19 {s : JStr}
    (h : ∀ c ∈ s, isDigit19 c = false) :
    jsNumber s = none ∨ jsNumber s = some 0 := by
  unfold jsNumber
  by_cases ht : jsTrim s = []
  · simp [ht]
  · simp only [ht, if_neg (by exact ht)]
    have hmem : ∀ c ∈ (stripSign (jsTrim s)).2, c ∈ s := by
      intro c hc
      exact mem_of_mem_jsTrim (mem_stripSign hc)
    set u := (stripSign (jsTrim s)).2 with hu
    have hip : natOfDigits (u.takeWhile isDigit09) = 0 := by
      apply natOfDigits_eq_zero
      intro c hc
      exact digitVal_eq_zero (List.mem_takeWhile_imp hc)
        (h c (hmem c (List.takeWhile_subset isDigit09 hc)))
    have hfp : natOfDigits (fracPart (u.dropWhile isDigit09)).1 = 0 := by
      apply natOfDigits_eq_zero
      intro c hc
      unfold fracPart at hc
      split at hc
      · rename_i r heq
        have hcr : c ∈ u.dropWhile isDigit09 := by
          rw [heq]
          exact List.mem_cons_of_mem _ (List.takeWhile_subset isDigit09 hc)
        exact digitVal_eq_zero (List.mem_takeWhile_imp hc)
          (h c (hmem c (List.dropWhile_subset isDigit09 hcr)))
      · simp at hc
    by_cases hguard : u.takeWhile isDigit09 = [] ∧ (fracPart (u.dropWhile isDigit09)).1 = []
    · simp [hguard]
    · simp only [if_neg hguard]
      rw [hip, hfp]
      rcases hsplit : (fracPart (u.dropWhile isDigit09)).2 with _ | ⟨e, r⟩
      · right
        simp [signedMkRat_zero]
      · by_cases he : e = 'e' ∨ e = 'E'
        · simp only [he, if_true]
          by_cases hed : ((stripExpSign r).2.takeWhile isDigit09 = [] ∨
              (stripExpSign r).2.dropWhile isDigit09 ≠ [])
          · left
            rw [if_pos hed]
            simp
          · simp only [if_neg hed]
            right
            split <;> simp [signedMkRat_zero]
        · simp [he]

/-! ## JavaScript `Set` (insertion-order dedup) and the tolerance error count -/

/-- `new Set(l)` as a list: keep the first occurrence of each element. -/
def jsSet {α : Type} [DecidableEq α] : List α → List α
  | [] => []
  | a :: t => a :: (jsSet t).filter (fun x => decide (x ≠ a))

theorem mem_jsSet {α : Type} [DecidableEq α] {a : α} {l : List α} :
    a ∈ jsSet l ↔ a ∈ l := by
  induction l with
  | nil => simp [jsSet]
  | cons b t ih =>
    simp only [jsSet, List.mem_cons, List.mem_filter, decide_eq_true_eq]
    constructor
    · rintro (he | ⟨hm, _⟩)
      · exact Or.inl he
      · exact Or.inr (ih.mp hm)
    · rintro (he | hm)
      · exact Or.inl he
      · by_cases hab : a = b
        · exact Or.inl hab
        · exact Or.inr ⟨ih.mpr hm, hab⟩

theorem nodup_jsSet {α : Type} [DecidableEq α] (l : List α) : (jsSet l).Nodup := by
  induction l with
  | nil => simp [jsSet]
  | cons b t ih =>
    simp only [jsSet, List.nodup_cons]
    constructor
    · intro hmem
      have := (List.mem_filter.mp hmem).2
      simp at this
    · exact List.Nodup.filter _ ih

theorem toFinset_jsSet {α : Type} [DecidableEq α] (l : List α) :
    (jsSet l).toFinset = l.toFinset := by
  ext a
  simp [List.mem_toFinset, mem_jsSet]

theorem jsSet_of_all_eq {α : Type} [DecidableEq α] {l : List α} {z : α}
    (hne : l ≠ []) (hall : ∀ x ∈ l, x = z) : jsSet l = [z] := by
  cases l with
  | nil => exact absurd rfl hne
  | cons a t =>
    have ha : a = z := hall a (by simp)
    have hfilter : (jsSet t).filter (fun x => decide (x ≠ a)) = [] := by
      rw [List.filter_eq_nil_iff]
      intro x hx
      have hx' : x = z := hall x (List.mem_cons_of_mem _ (mem_jsSet.mp hx))
      simp [hx', ha]
    have hstep : jsSet (a :: t) = a :: (jsSet t).filter (fun x => decide (x ≠ a)) := rfl
    rw [hstep, hfilter, ha]

/-- The error count of the tolerance rule: members of the first set missing
from the second plus members of the second that are not in the first, both
iterated over deduplicated lists. -/
def errorCount (cS sS : List ℚ) : ℕ :=
  cS.countP (fun n => decide (n ∉ sS)) + sS.countP (fun n => decide (n ∉ cS))

theorem countP_not_mem_eq_card_sdiff {A B : List ℚ} (hA : A.Nodup) :
    A.countP (fun n => decide (n ∉ B)) = (A.toFinset \ B.toFinset).card := by
  rw [List.countP_eq_length_filter, Finset.sdiff_eq_filter]
  have hfs : (A.filter (fun n => decide (n ∉ B))).toFinset
      = A.toFinset.filter (fun n => n ∉ B.toFinset) := by
    rw [List.toFinset_filter]
    apply Finset.filter_congr
    intro x _
    simp [List.mem_toFinset]
  rw [← hfs]
  exact (List.toFinset_card_of_nodup (List.Nodup.filter _ hA)).symm

/-- `errorCount` over deduplicated lists is the cardinality of the symmetric
difference of the corresponding finite sets. -/
theorem errorCount_jsSet_eq (l₁ l₂ : List ℚ) :
    errorCount (jsSet l₁) (jsSet l₂)
      = (l₁.toFinset \ l₂.toFinset).card + (l₂.toFinset \ l₁.toFinset).card := by
  unfold errorCount
  rw [countP_not_mem_eq_card_sdiff (nodup_jsSet l₁),
    countP_not_mem_eq_card_sdiff (nodup_jsSet l₂),
    toFinset_jsSet, toFinset_jsSet]

/-! ## Sorting (JavaScript `Array.prototype.sort`) -/

/-- Default JS string comparison: lexicographic by character code. -/
def jstrLeB : JStr → JStr → Bool
  | [], _ => true
  | _ :: _, [] => false
  | a :: s, b :: t => if a = b then jstrLeB s t else decide (a < b)

/-- The JS comparison as a relation on strings. -/
def jstrLe (a b : JStr) : Prop := jstrLeB a b = true

instance : DecidableRel jstrLe := fun a b => by
  unfold jstrLe
  infer_instance

/-- `.sort()` on an array of strings: JS `sort` is a stable sort by the
comparator, so any stable sort produces the same list. -/
def sortStrs (l : List JStr) : List JStr := l.insertionSort jstrLe

/-- `.sort((a, b) => a - b)` on an array of numbers. -/
def sortNats (l : List ℕ) : List ℕ := l.insertionSort (· ≤ ·)

theorem sortStrs_perm (l : List JStr) : List.Perm (sortStrs l) l :=
  List.perm_insertionSort _ l

theorem sortNats_perm (l : List ℕ) : List.Perm (sortNats l) l :=
  List.perm_insertionSort _ l

theorem sortStrs_of_sorted {l : List JStr} (h : l.Pairwise jstrLe) :
    sortStrs l = l :=
  List.Sorted.insertionSort_eq h

theorem sortNats_sorted (l : List ℕ) : (sortNats l).Pairwise (· ≤ ·) :=
  List.sorted_insertionSort _ l

/-! ## Data model (`types.ts`) -/

/-- An answer value: a single string or an array of strings
(`string | string[]`). -/
inductive Answer where
  | str : JStr → Answer
  | arr : List JStr → Answer
deriving DecidableEq

/-- A rendered challenge image (`ChallengeImage`); the pixel data is opaque
to every property verified here. -/
structure ChallengeImage where
  data : List ℕ
  mimeType : JStr
  width : ℕ
  height : ℕ
deriving DecidableEq

/-- The central `Challenge` entity.  The free-form `metadata` record plays no
role in any verified property and is omitted. -/
structure Challenge where
  id : JStr
  generatorId : JStr
  images : List ChallengeImage
  question : JStr
  options : Option (List JStr)
  correctAnswer : Answer
  expiresAt : ℤ
deriving DecidableEq

/-- `ChallengeResponse`: what the user submits. -/
structure ChallengeResponse where
  challengeId : JStr
  answer : Answer
deriving DecidableEq

/-- `VerificationResult`. -/
structure VerificationResult where
  success : Bool
  challengeId : JStr
deriving DecidableEq

/-! ## Challenge store and verifier (`challenge/verifier.ts`)

The in-memory `Map` store is modelled as an association list; `Date.now()`
is an explicit `now` argument. -/

/-- The in-memory challenge store. -/
abbrev Store := List (JStr × Challenge)

/-- `store.get(id)`. -/
def storeGet (st : Store) (id : JStr) : Option Challenge :=
  (st.find? (fun p => decide (p.1 = id))).map (·.2)

/-- `store.delete(id)`. -/
def storeDelete (st : Store) (id : JStr) : Store :=
  st.filter (fun p => decide (p.1 ≠ id))

/-- `storeChallenge`: `store.set(challenge.id, challenge)`. -/
def storeChallenge (st : Store) (challenge : Challenge) : Store :=
  storeDelete st challenge.id ++ [(challenge.id, challenge)]

/-- `normalizeAnswer`: arrays have each member trimmed and upper-cased, then
are sorted and comma-joined; strings are trimmed and upper-cased. -/
def normalizeAnswer : Answer → JStr
  | .arr a => joinComma (sortStrs (a.map (fun x => jsUpper (jsTrim x))))
  | .str s => jsUpper (jsTrim s)

/-- The number extraction inside `isAnswerCorrect`:
`.split(',').map(Number).filter(n => !isNaN(n) && n > 0)`. -/
def parsePositiveNums (s : JStr) : List ℚ :=
  ((splitComma s).filterMap jsNumber).filter (fun n => decide (0 < n))

/-- `isAnswerCorrect`: exact normalized match always succeeds; an array
(select-all) correct answer additionally tolerates one total error between
the parsed positive-number sets. -/
def isAnswerCorrect (submitted correct : Answer) : Bool :=
  let normalizedSubmitted := normalizeAnswer submitted
  let normalizedCorrect := normalizeAnswer correct
  if normalizedSubmitted = normalizedCorrect then true
  else
    match correct with
    | .str _ => false
    | .arr _ =>
      let correctNums := parsePositiveNums normalizedCorrect
      let submittedNums := parsePositiveNums normalizedSubmitted
      if correctNums = [] ∨ submittedNums = [] then false
      else decide (errorCount (jsSet correctNums) (jsSet submittedNums) ≤ 1)

/-- `verify`: look up by id (absent ⇒ failure), remove the entry (single
use), fail when expired, otherwise score the answer.  Returns the result
together with the updated store. -/
def verify (st : Store) (response : ChallengeResponse) (now : ℤ) :
    VerificationResult × Store :=
  match storeGet st response.challengeId with
  | none => (⟨false, response.challengeId⟩, st)
  | some challenge =>
    let st' := storeDelete st response.challengeId
    if now > challenge.expiresAt then (⟨false, response.challengeId⟩, st')
    else (⟨isAnswerCorrect response.answer challenge.correctAnswer, response.challengeId⟩, st')

/-- `pruneExpired`: remove all entries strictly past expiry; return the
surviving store and the number pruned. -/
def pruneExpired (st : Store) (now : ℤ) : Store × ℕ :=
  (st.filter (fun p => !decide (now > p.2.expiresAt)),
   st.countP (fun p => decide (now > p.2.expiresAt)))

theorem storeGet_storeDelete (st : Store) (id : JStr) :
    storeGet (storeDelete st id) id = none := by
  unfold storeGet storeDelete
  have hfind : (st.filter (fun p => decide (p.1 ≠ id))).find? (fun p => decide (p.1 = id))
      = none := by
    rw [List.find?_eq_none]
    intro p hp
    have := (List.mem_filter.mp hp).2
    simpa using this
  rw [hfind]
  rfl

/-! ## Claim-side scoring specification (§4.4 of the spec)

These definitions restate the spec's scoring rule in set language, to be
compared with the code-side `isAnswerCorrect`. -/

/-- `Array.isArray` on an answer. -/
def isArray : Answer → Bool
  | .arr _ => true
  | .str _ => false

/-- The set of parsed cell numbers of a normalized answer string. -/
def cellSet (s : JStr) : Finset ℚ := (parsePositiveNums s).toFinset

/-- Misses plus false positives between the parsed cell sets. -/
def toleranceErrors (c s : JStr) : ℕ :=
  (cellSet c \ cellSet s).card + (cellSet s \ cellSet c).card

/-- The scoring rule exactly as the claim states it: exact normalized match,
or (select-all) at most one total error between the parsed cell sets. -/
def claimAccepts (submitted correct : Answer) : Prop :=
  normalizeAnswer submitted = normalizeAnswer correct ∨
  (isArray correct = true ∧
    toleranceErrors (normalizeAnswer correct) (normalizeAnswer submitted) ≤ 1)

/-- The amended scoring rule: as `claimAccepts`, but the tolerance branch
additionally requires both parsed cell sets to be nonempty (the code rejects
when either side parses to no positive numbers). -/
def specAccepts (submitted correct : Answer) : Prop :=
  normalizeAnswer submitted = normalizeAnswer correct ∨
  (isArray correct = true ∧
    cellSet (normalizeAnswer correct) ≠ ∅ ∧
    cellSet (normalizeAnswer submitted) ≠ ∅ ∧
    toleranceErrors (normalizeAnswer correct) (normalizeAnswer submitted) ≤ 1)

instance (submitted correct : Answer) : Decidable (claimAccepts submitted correct) := by
  unfold claimAccepts
  infer_instance

instance (submitted correct : Answer) : Decidable (specAccepts submitted correct) := by
  unfold specAccepts
  infer_instance

/-! ## Eval harness (`eval/src/prompts.ts`, `eval/src/runner.ts`) -/

/-- Word characters for the `\b` boundary in `parseAnswer`'s
`/^([A-D])\b/` regex. -/
def isWordChar (c : Char) : Bool :=
  (decide ('A' ≤ c) && decide (c ≤ 'Z')) || (decide ('a' ≤ c) && decide (c ≤ 'z')) ||
  isDigit09 c || decide (c = '_')

/-- `a` starts with `pat`. -/
def startsWith : JStr → JStr → Bool
  | [], _ => true
  | _ :: _, [] => false
  | a :: s, b :: t => decide (a = b) && startsWith s t

/-- `s.includes(pat)`: `pat` occurs contiguously in `s`. -/
def includesSeq (s pat : JStr) : Bool :=
  match s with
  | [] => pat.isEmpty
  | _ :: t => startsWith pat s || includesSeq t pat

/-- The multiple-choice branch of `parseAnswer`: an `A`–`D` letter answer
selects the corresponding option; otherwise the first option contained in
the cleaned response wins; otherwise the cleaned response itself. -/
def parseAnswerMC (cleaned : JStr) (opts : List JStr) : JStr :=
  let includesOpt : Option JStr :=
    opts.find? (fun o => includesSeq cleaned (jsUpper o))
  match cleaned with
  | c :: rest =>
    if decide ('A' ≤ c) && decide (c ≤ 'D')
        && (rest.isEmpty || !isWordChar (rest.headD ' ') ) then
      let idx := c.toNat - 65
      if h : idx < opts.length then opts[idx]
      else match includesOpt with
        | some o => o
        | none => cleaned
    else match includesOpt with
      | some o => o
      | none => cleaned
  | [] =>
    match includesOpt with
    | some o => o
    | none => cleaned

/-- The select-all branch of `parseAnswer`: extract the digits `1`–`9`,
dedup, sort ascending and comma-join; fall back to the cleaned response
when no digit occurs. -/
def parseAnswerGrid (cleaned : JStr) : JStr :=
  let digits := cleaned.filter isDigit19
  if digits.isEmpty then cleaned
  else joinComma ((sortNats (jsSet (digits.map digitVal))).map (fun n => [Char.ofNat (48 + n)]))

/-- `parseAnswer(raw, options)`. -/
def parseAnswer (raw : JStr) (options : Option (List JStr)) : JStr :=
  let cleaned := jsUpper (jsTrim raw)
  match options with
  | some opts => parseAnswerMC cleaned opts
  | none => parseAnswerGrid cleaned

/-- The string a cell index is rendered as (`String(n)` for `n` ∈ 1..9). -/
def digitStr (n : ℕ) : JStr := [Char.ofNat (48 + n)]

/-- `isCorrectWithTolerance` from the eval runner: exact (upper-cased) match
against the comma-join of the correct answer, else ±1 total error between
the parsed numeric sets (`.split(',').map(s => s.trim()).filter(Boolean)
.map(Number).filter(n => !isNaN(n))`). -/
def isCorrectWithTolerance (parsed : JStr) (correctAnswer : Answer) : Bool :=
  let correctStr := match correctAnswer with
    | .arr a => joinComma a
    | .str s => s
  if jsUpper parsed = jsUpper correctStr then true
  else
    let correctNums := (((splitComma correctStr).map jsTrim).filter
      (fun m => !m.isEmpty)).filterMap jsNumber
    let parsedNums := (((splitComma parsed).map jsTrim).filter
      (fun m => !m.isEmpty)).filterMap jsNumber
    if correctNums = [] ∨ parsedNums = [] then false
    else decide (errorCount (jsSet correctNums) (jsSet parsedNums) ≤ 1)

/-- A model/agent configuration (`ModelConfig`). -/
structure ModelConfig where
  id : JStr
  name : JStr
deriving DecidableEq

/-- What `evaluateWithModel` returns on success. -/
structure AgentReply where
  answer : JStr
  latencyMs : ℕ
  raw : JStr

/-- One recorded per-challenge result (`EvalChallengeResult`). -/
structure EvalChallengeResult where
  challengeId : JStr
  modelAnswer : JStr
  correctAnswer : Answer
  correct : Bool
  latencyMs : ℕ
  rawResponse : JStr

/-- Per-model aggregate (`ModelResult`).  Accuracy and average latency are
rationals. -/
structure ModelResult where
  modelId : JStr
  modelName : JStr
  challenges : List EvalChallengeResult
  accuracy : ℚ
  avgLatencyMs : ℚ

/-- An eval run record (`EvalRun`). -/
structure EvalRun where
  runId : JStr
  timestamp : JStr
  generatorId : JStr
  modelResults : List ModelResult

/-- The transport oracle: what `evaluateWithModel(model.id, images, prompt)`
does for a given model and challenge; `Except.error` models a thrown
transport error. -/
abbrev AgentOracle := ModelConfig → Challenge → Except JStr AgentReply

/-- The per-challenge loop body of `runEvalOnChallenges`: on success parse
and score the reply, on a thrown error record an incorrect result with zero
latency. -/
def scoreChallenge (oracle : AgentOracle) (model : ModelConfig)
    (challenge : Challenge) : EvalChallengeResult :=
  match oracle model challenge with
  | .ok reply =>
    let parsed := parseAnswer reply.answer challenge.options
    { challengeId := challenge.id
      modelAnswer := parsed
      correctAnswer := challenge.correctAnswer
      correct := isCorrectWithTolerance parsed challenge.correctAnswer
      latencyMs := reply.latencyMs
      rawResponse := reply.raw }
  | .error msg =>
    { challengeId := challenge.id
      modelAnswer := ('E' :: 'R' :: 'R' :: 'O' :: 'R' :: ':' :: ' ' :: msg)
      correctAnswer := challenge.correctAnswer
      correct := false
      latencyMs := 0
      rawResponse := msg }

/-- `runEvalOnChallenges`: throws on an empty batch, otherwise scores every
model against every challenge and aggregates.  `runId`/`timestamp` are
ambient values passed explicitly. -/
def runEvalOnChallenges (oracle : AgentOracle) (runId timestamp generatorId : JStr)
    (challenges : List Challenge) (models : List ModelConfig) : Except JStr EvalRun :=
  if challenges.length = 0 then
    .error ('n' :: 'o' :: ' ' :: 'c' :: 'h' :: 'a' :: 'l' :: 'l' :: 'e' :: 'n' :: 'g' :: 'e' :: 's' :: [])
  else
    .ok
      { runId := runId
        timestamp := timestamp
        generatorId := generatorId
        modelResults := models.map (fun model =>
          let results := challenges.map (scoreChallenge oracle model)
          let correctCount := results.countP (·.correct)
          { modelId := model.id
            modelName := model.name
            challenges := results
            accuracy := mkRat correctCount challenges.length
            avgLatencyMs := mkRat (results.foldl (fun acc r => acc + r.latencyMs) 0)
              results.length }) }

/-! ## Randomness (`utils/random.ts`)

`crypto.getRandomValues` is modelled as an explicit stream of natural-number
draws; an exhausted stream yields `0`.  `Math.random()` draws are explicit
rationals. -/

/-- Shorthand for string constants. -/
def jstr (s : String) : JStr := s.toList

/-- A stream of raw 32-bit draws. -/
abbrev RSrc := List ℕ

/-- `randomInt(min, max)`: `min + draw % (max - min)`. -/
def randomIntR (lo hi : ℕ) (s : RSrc) : ℕ × RSrc :=
  (lo + s.headD 0 % (hi - lo), s.tail)

/-- `randomPick(arr)`: `arr[randomInt(0, arr.length)]` (with an explicit
default for the out-of-range case, which no call site reaches). -/
def randomPickR {α : Type} (l : List α) (dflt : α) (s : RSrc) : α × RSrc :=
  let (i, s₁) := randomIntR 0 l.length s
  (l.getD i dflt, s₁)

/-- Swap two positions of a list (no-op when either is out of range). -/
def swapL {α : Type} (l : List α) (i j : ℕ) : List α :=
  match l[i]?, l[j]? with
  | some a, some b => (l.set i b).set j a
  | _, _ => l

/-- The Fisher–Yates loop: at index `i+1` draw `j = randomInt(0, i+2)` and
swap, then continue downwards. -/
def fyLoop {α : Type} : List α → RSrc → ℕ → List α × RSrc
  | l, s, 0 => (l, s)
  | l, s, i+1 =>
    let (j, s₁) := randomIntR 0 (i + 2) s
    fyLoop (swapL l (i+1) j) s₁ i

/-- `shuffle(arr)`: in-place Fisher–Yates from the last index down. -/
def shuffleR {α : Type} (l : List α) (s : RSrc) : List α × RSrc :=
  fyLoop l s (l.length - 1)

/-! ## Generator option construction (`generators/*.ts`)

Only the answer/option pipeline of each generator is embedded; the pixel
rendering consumes further random draws after the options are fixed and
affects no verified property. -/

/-- `ALPHABET` of the grid-overlay generator. -/
def gridOverlayAlphabet : JStr := jstr "ABCDEFGHIJKLMNOPQRSTUVWXYZ"

/-- `ALPHABET` of the emerging-image generator (no confusable letters). -/
def emergingImageAlphabet : JStr := jstr "ABCDEFGHJKLMNPRSTUVWXYZ"

/-- `CHARS` of the proximity-text and abutting-grating generators. -/
def evalChars : List JStr :=
  (jstr "ABCDEFGHJKLMNPRSTUVWXYZ23456789").map (fun c => [c])

/-- `WORDS` of the partial-occlusion generator. -/
def poWords : List JStr :=
  ["ALPHA", "BRAVO", "DELTA", "EAGLE", "FLAME", "GRAPE", "HORSE", "IVORY",
   "JOKER", "KNIFE", "LEMON", "MAPLE", "NOBLE", "OCEAN", "PEARL", "QUEST",
   "RAVEN", "SOLAR", "TIGER", "ULTRA", "VIVID", "WALTZ", "XENON", "YACHT",
   "ZEBRA", "STORM", "BLAZE", "CRANE", "DRIFT", "FROST",
   "FLUX", "BOLD", "CALM", "DARK", "ECHO", "FERN", "GLOW", "HAZE",
   "JADE", "KITE", "LUNA", "MIST", "NOVA", "OPAL", "PINE", "ROSE"].map String.toList

/-- `SIMILAR_LETTERS`: visually confusable substitutions. -/
def similarLetters (c : Char) : Option JStr :=
  match c with
  | 'A' => some (jstr "HRK") | 'B' => some (jstr "DPR") | 'C' => some (jstr "GOQ")
  | 'D' => some (jstr "BPO") | 'E' => some (jstr "FBL") | 'F' => some (jstr "EPT")
  | 'G' => some (jstr "CQO") | 'H' => some (jstr "NMK") | 'I' => some (jstr "LTJ")
  | 'J' => some (jstr "ILT") | 'K' => some (jstr "HXR") | 'L' => some (jstr "ITJ")
  | 'M' => some (jstr "NWH") | 'N' => some (jstr "MHW") | 'O' => some (jstr "QCD")
  | 'P' => some (jstr "BDR") | 'Q' => some (jstr "OGC") | 'R' => some (jstr "BPK")
  | 'S' => some (jstr "ZCG") | 'T' => some (jstr "ILF") | 'U' => some (jstr "VWY")
  | 'V' => some (jstr "UWY") | 'W' => some (jstr "MVN") | 'X' => some (jstr "KZY")
  | 'Y' => some (jstr "VXT") | 'Z' => some (jstr "SXN")
  | _ => none

/-- `generateRandomToken`: a 4–5 letter token of distinct letters taken from
a shuffled alphabet. -/
def generateRandomToken (alphabet : JStr) (s : RSrc) : JStr × RSrc :=
  let b := randomIntR 4 6 s
  let sh := shuffleR alphabet b.2
  (sh.1.take b.1, sh.2)

/-- The bounded permutation-distractor loop shared by grid-overlay and
emerging-image (`while (size < count && attempts < 200)`); a JS `Set.add`
is add-if-absent. -/
def permDistractorLoop (word : JStr) (count : ℕ) :
    ℕ → List JStr → RSrc → List JStr × RSrc
  | 0, acc, s => (acc, s)
  | fuel+1, acc, s =>
    if acc.length < count then
      let d := (shuffleR word s).1
      permDistractorLoop word count fuel
        (if d ≠ word ∧ d ∉ acc then acc ++ [d] else acc) (shuffleR word s).2
    else (acc, s)

/-- `generatePermutationDistractors(word, count)`: up to 200 attempts, no
fallback. -/
def generatePermutationDistractors (word : JStr) (count : ℕ) (s : RSrc) :
    List JStr × RSrc :=
  permDistractorLoop word count 200 [] s

/-- The grid-overlay generator's token, distractors and option list. -/
def gridOverlayOptions (s : RSrc) : JStr × List JStr × List JStr :=
  let t := generateRandomToken gridOverlayAlphabet s
  let d := generatePermutationDistractors t.1 3 t.2
  (t.1, d.1, (shuffleR (t.1 :: d.1) d.2).1)

/-- The emerging-image generator's token, distractors and option list. -/
def emergingImageOptions (s : RSrc) : JStr × List JStr × List JStr :=
  let t := generateRandomToken emergingImageAlphabet s
  let d := generatePermutationDistractors t.1 3 t.2
  (t.1, d.1, (shuffleR (t.1 :: d.1) d.2).1)

/-- The unbounded pick-until-distinct loop (`while (size < count)`) of
proximity-text, abutting-grating and the partial-occlusion fallback,
modelled with fuel: `none` is a run that has not terminated within the
fuel.  JS `Set.add` is add-if-absent, which also covers the variants that
do not test membership explicitly. -/
def pickUniqueLoop (pool : List JStr) (avoid : JStr) (count : ℕ) :
    ℕ → List JStr → RSrc → Option (List JStr × RSrc)
  | 0, acc, s => if acc.length < count then none else some (acc, s)
  | fuel+1, acc, s =>
    if acc.length < count then
      let w := (randomPickR pool [] s).1
      pickUniqueLoop pool avoid count fuel
        (if w ≠ avoid ∧ w ∉ acc then acc ++ [w] else acc) (randomPickR pool [] s).2
    else some (acc, s)

/-- The bounded substitution loop of the partial-occlusion generator
(`while (size < count && attempts < 50)`). -/
def poSubstLoop (word : JStr) (count : ℕ) :
    ℕ → List JStr → RSrc → List JStr × RSrc
  | 0, acc, s => (acc, s)
  | fuel+1, acc, s =>
    if acc.length < count then
      let p := randomIntR 0 word.length s
      match similarLetters (word.getD p.1 'A') with
      | some subs =>
        let sub := randomPickR subs 'A' p.2
        let d := word.set p.1 sub.1
        poSubstLoop word count fuel
          (if d ≠ word ∧ d ∉ acc then acc ++ [d] else acc) sub.2
      | none =>
        poSubstLoop word count fuel acc p.2
    else (acc, s)

/-- The partial-occlusion generator's word, distractors and option list;
`none` when the unbounded fallback loop exceeds the fuel. -/
def partialOcclusionOptions (fuel : ℕ) (s : RSrc) :
    Option (JStr × List JStr × List JStr) :=
  let w := randomPickR poWords [] s
  let a := poSubstLoop w.1 3 50 [] w.2
  match pickUniqueLoop poWords w.1 3 fuel a.1 a.2 with
  | none => none
  | some (ds, s₃) =>
    some (w.1, ds, (shuffleR (w.1 :: ds) s₃).1)

/-- The proximity-text generator's character, distractors and option list. -/
def proximityTextOptions (fuel : ℕ) (s : RSrc) :
    Option (JStr × List JStr × List JStr) :=
  let c := randomPickR evalChars [] s
  match pickUniqueLoop evalChars c.1 3 fuel [] c.2 with
  | none => none
  | some (ds, s₂) =>
    some (c.1, ds, (shuffleR (c.1 :: ds) s₂).1)

/-- The abutting-grating generator's character, distractors and option
list. -/
def abuttingGratingOptions (fuel : ℕ) (s : RSrc) :
    Option (JStr × List JStr × List JStr) :=
  let c := randomPickR evalChars [] s
  match pickUniqueLoop evalChars c.1 3 fuel [] c.2 with
  | none => none
  | some (ds, s₂) =>
    some (c.1, ds, (shuffleR (c.1 :: ds) s₂).1)

/-- `ALL_OPTIONS` of the illusory-contours generator. -/
def illusoryShapes : List JStr :=
  ["Square", "Triangle", "Diamond", "Pentagon", "Hexagon", "Star",
   "No clear shape"].map String.toList

/-- The illusory-contours generator's target, distractors and option list:
the 3 distractors are a shuffled sample of the other shapes. -/
def illusoryContoursOptions (s : RSrc) : JStr × List JStr × List JStr :=
  let t := randomPickR illusoryShapes [] s
  let sh := shuffleR (illusoryShapes.filter (fun o => decide (o ≠ t.1))) t.2
  let ds := sh.1.take 3
  (t.1, ds, (shuffleR (t.1 :: ds) sh.2).1)

/-! ## The illusion-faces (select-all) generator (`illusion-faces.ts`) -/

/-- The generator's local `randomInt`:
`Math.floor(min + Math.random() * (max - min))`. -/
def mathRandomInt (lo hi : ℕ) (r : ℚ) : ℤ :=
  ⌊(lo : ℚ) + r * ((hi : ℚ) - (lo : ℚ))⌋

/-- The ambient inputs of one `IllusionFacesGenerator.generate()` call:
the two `Math.random()` draws, the crypto stream for the shuffles, the
face-source files on disk, the external synthesis service (one image per
cell) and the `FAL_KEY` presence. -/
structure IllusionFacesEnv where
  rFace : ℚ
  stream : RSrc
  facePaths : List JStr
  synthesize : ℕ → ChallengeImage
  hasFalKey : Bool

/-- `IllusionFacesGenerator.generate()`: pick 2–5 of the 9 cells, sort them
ascending, synthesize all 9 cell images, and return a select-all challenge
whose `correctAnswer` is the sorted list of cell-index strings.  `none`
models the thrown configuration errors (missing key, no face sources). -/
def illusionFacesGenerate (env : IllusionFacesEnv) (shellId : JStr) (now : ℤ) :
    Option Challenge :=
  if !env.hasFalKey then none else
  if env.facePaths.isEmpty then none else
  let faceCount := (mathRandomInt 2 6 env.rFace).toNat
  let shuffledIdx := (shuffleR (List.range' 1 9) env.stream).1
  let faceCellIndices := sortNats (shuffledIdx.take faceCount)
  some
    { id := shellId
      generatorId := jstr "illusion-faces"
      images := (List.range' 1 9).map env.synthesize
      question := jstr "Select all images with hidden faces."
      options := none
      correctAnswer := .arr (faceCellIndices.map digitStr)
      expiresAt := now + 5 * 60 * 1000 }

/-! ## Concrete instances used in closed checks -/

/-- A stored select-all challenge whose correct answer is the single cell
`{1}`. -/
def chSingleCell : Challenge :=
  { id := jstr "c1"
    generatorId := jstr "illusion-faces"
    images := []
    question := jstr "Select all images with hidden faces."
    options := none
    correctAnswer := .arr [jstr "1"]
    expiresAt := 1000 }

/-- A stored select-all challenge with correct answer `{1,3}`. -/
def chCells13 : Challenge :=
  { id := jstr "c13"
    generatorId := jstr "illusion-faces"
    images := []
    question := jstr "Select all images with hidden faces."
    options := none
    correctAnswer := .arr [jstr "1", jstr "3"]
    expiresAt := 1000 }

/-- The fixed eval challenge of the scenario: select-all with correct answer
`["1","4","7"]`. -/
def chCells147 : Challenge :=
  { id := jstr "c147"
    generatorId := jstr "illusion-faces"
    images := []
    question := jstr "Select all images with hidden faces."
    options := none
    correctAnswer := .arr [jstr "1", jstr "4", jstr "7"]
    expiresAt := 1000 }

/-- A second challenge for the eval-run checks. -/
def chCells25 : Challenge :=
  { id := jstr "c25"
    generatorId := jstr "illusion-faces"
    images := []
    question := jstr "Select all images with hidden faces."
    options := none
    correctAnswer := .arr [jstr "2", jstr "5"]
    expiresAt := 1000 }

/-- An eval model configuration. -/
def mEval : ModelConfig := { id := jstr "m1", name := jstr "Model One" }

/-- A second eval model configuration. -/
def mEval2 : ModelConfig := { id := jstr "m2", name := jstr "Model Two" }

/-- A stubbed agent that always answers `"1,4"`. -/
def stubAgent14 : AgentOracle :=
  fun _ _ => .ok { answer := jstr "1,4", latencyMs := 100, raw := jstr "1,4" }

/-- An agent whose transport fails on the `c147` challenge only. -/
def flakyAgent : AgentOracle :=
  fun _ challenge =>
    if challenge.id = jstr "c147" then .error (jstr "ECONNRESET")
    else .ok { answer := jstr "2,5", latencyMs := 40, raw := jstr "2,5" }

/-- A concrete environment for an illusion-faces generation. -/
def envC6 : IllusionFacesEnv :=
  { rFace := mkRat 1 2
    stream := []
    facePaths := [jstr "face-1.png"]
    synthesize := fun _ => { data := [], mimeType := jstr "image/png", width := 512, height := 512 }
    hasFalKey := true }

/-! ## Theorems: the Fisher–Yates shuffle permutes its input -/

theorem count_set_of_getElem {α : Type} [DecidableEq α] {l : List α} {i : ℕ}
    {a : α} (h : l[i]? = some a) (b x : α) :
    (l.set i b).count x + (if a = x then 1 else 0)
      = l.count x + (if b = x then 1 else 0) := by
  induction l generalizing i with
  | nil => simp at h
  | cons c t ih =>
    cases i with
    | zero =>
      simp only [List.getElem?_cons_zero, Option.some.injEq] at h
      subst h
      simp only [List.set_cons_zero, List.count_cons, beq_iff_eq]
      omega
    | succ i =>
      simp only [List.getElem?_cons_succ] at h
      have := ih h
      simp only [List.set_cons_succ, List.count_cons, beq_iff_eq]
      omega

theorem swapL_perm {α : Type} [DecidableEq α] (l : List α) (i j : ℕ) :
    List.Perm (swapL l i j) l := by
  unfold swapL
  rcases hi : l[i]? with _ | ⟨a⟩
  · simp
  · rcases hj : l[j]? with _ | ⟨b⟩
    · simp
    · simp only
      rw [List.perm_iff_count]
      intro x
      by_cases hij : i = j
      · subst hij
        rw [hi] at hj
        injection hj with hab
        subst hab
        rw [List.set_set]
        have h1 := count_set_of_getElem hi a x
        omega
      · have hbj : (l.set i b)[j]? = some b := by
          rw [List.getElem?_set_ne (by omega)]
          exact hj
        have h1 := count_set_of_getElem hi b x
        have h2 := count_set_of_getElem hbj a x
        omega

theorem fyLoop_perm {α : Type} [DecidableEq α] (l : List α) (s : RSrc) (i : ℕ) :
    List.Perm (fyLoop l s i).1 l := by
  induction i generalizing l s with
  | zero => exact List.Perm.refl l
  | succ i ih =>
    have hstep : (fyLoop l s (i+1)).1
        = (fyLoop (swapL l (i+1) ((randomIntR 0 (i+2) s).1)) (randomIntR 0 (i+2) s).2 i).1 := rfl
    rw [hstep]
    exact (ih _ _).trans (swapL_perm l (i+1) _)

theorem shuffleR_perm {α : Type} [DecidableEq α] (l : List α) (s : RSrc) :
    List.Perm (shuffleR l s).1 l :=
  fyLoop_perm l s (l.length - 1)

theorem shuffleR_length {α : Type} [DecidableEq α] (l : List α) (s : RSrc) :
    (shuffleR l s).1.length = l.length :=
  (shuffleR_perm l s).length_eq

theorem shuffleR_nodup {α : Type} [DecidableEq α] {l : List α} (h : l.Nodup)
    (s : RSrc) : (shuffleR l s).1.Nodup :=
  ((shuffleR_perm l s).nodup_iff).mpr h

theorem mem_shuffleR {α : Type} [DecidableEq α] {l : List α} {x : α} (s : RSrc) :
    x ∈ (shuffleR l s).1 ↔ x ∈ l :=
  (shuffleR_perm l s).mem_iff

/-! ## Theorems: distractor loops produce distinct non-answer entries -/

theorem permDistractorLoop_spec (word : JStr) (count : ℕ) :
    ∀ (fuel : ℕ) (acc : List JStr) (s : RSrc),
    acc.Nodup → (∀ d ∈ acc, d ≠ word) →
    (permDistractorLoop word count fuel acc s).1.Nodup
      ∧ ∀ d ∈ (permDistractorLoop word count fuel acc s).1, d ≠ word := by
  intro fuel
  induction fuel with
  | zero =>
    intro acc s hnd hav
    exact ⟨hnd, hav⟩
  | succ fuel ih =>
    intro acc s hnd hav
    unfold permDistractorLoop
    by_cases hlt : acc.length < count
    · simp only [if_pos hlt]
      set d := (shuffleR word s).1 with hd
      by_cases hadd : d ≠ word ∧ d ∉ acc
      · simp only [if_pos hadd]
        apply ih
        · simp [List.nodup_append, hnd, hadd.2]
        · intro x hx
          rcases List.mem_append.mp hx with hx | hx
          · exact hav x hx
          · simp only [List.mem_singleton] at hx
            exact hx ▸ hadd.1
      · simp only [if_neg hadd]
        exact ih acc _ hnd hav
    · simp only [if_neg hlt]
      exact ⟨hnd, hav⟩

theorem pickUniqueLoop_spec (pool : List JStr) (avoid : JStr) (count : ℕ) :
    ∀ (fuel : ℕ) (acc : List JStr) (s : RSrc),
    acc.length ≤ count → acc.Nodup → (∀ d ∈ acc, d ≠ avoid) →
    ∀ res s', pickUniqueLoop pool avoid count fuel acc s = some (res, s') →
      res.length = count ∧ res.Nodup ∧ ∀ d ∈ res, d ≠ avoid := by
  intro fuel
  induction fuel with
  | zero =>
    intro acc s hlen hnd hav res s' hres
    unfold pickUniqueLoop at hres
    by_cases hlt : acc.length < count
    · simp [hlt] at hres
    · simp only [if_neg hlt, Option.some.injEq, Prod.mk.injEq] at hres
      obtain ⟨h1, _⟩ := hres
      subst h1
      exact ⟨by omega, hnd, hav⟩
  | succ fuel ih =>
    intro acc s hlen hnd hav res s' hres
    unfold pickUniqueLoop at hres
    by_cases hlt : acc.length < count
    · simp only [if_pos hlt] at hres
      set w := (randomPickR pool ([] : JStr) s).1 with hw
      by_cases hadd : w ≠ avoid ∧ w ∉ acc
      · rw [if_pos hadd] at hres
        apply ih _ _ _ _ _ _ _ hres
        · simp only [List.length_append, List.length_singleton]
          omega
        · simp [List.nodup_append, hnd, hadd.2]
        · intro x hx
          rcases List.mem_append.mp hx with hx | hx
          · exact hav x hx
          · simp only [List.mem_singleton] at hx
            exact hx ▸ hadd.1
      · rw [if_neg hadd] at hres
        exact ih _ _ hlen hnd hav _ _ hres
    · simp only [if_neg hlt, Option.some.injEq, Prod.mk.injEq] at hres
      obtain ⟨h1, _⟩ := hres
      subst h1
      exact ⟨by omega, hnd, hav⟩

theorem poSubstLoop_spec (word : JStr) (count : ℕ) :
    ∀ (fuel : ℕ) (acc : List JStr) (s : RSrc),
    acc.length ≤ count → acc.Nodup → (∀ d ∈ acc, d ≠ word) →
    (poSubstLoop word count fuel acc s).1.length ≤ count
      ∧ (poSubstLoop word count fuel acc s).1.Nodup
      ∧ ∀ d ∈ (poSubstLoop word count fuel acc s).1, d ≠ word := by
  intro fuel
  induction fuel with
  | zero =>
    intro acc s hlen hnd hav
    exact ⟨hlen, hnd, hav⟩
  | succ fuel ih =>
    intro acc s hlen hnd hav
    unfold poSubstLoop
    by_cases hlt : acc.length < count
    · simp only [if_pos hlt]
      rcases hsub : similarLetters (word.getD (randomIntR 0 word.length s).1 'A') with _ | ⟨subs⟩
      · exact ih acc _ hlen hnd hav
      · set d := word.set (randomIntR 0 word.length s).1
          (randomPickR subs 'A' (randomIntR 0 word.length s).2).1 with hd
        by_cases hadd : d ≠ word ∧ d ∉ acc
        · simp only [if_pos hadd]
          apply ih
          · simp only [List.length_append, List.length_singleton]
            omega
          · simp [List.nodup_append, hnd, hadd.2]
          · intro x hx
            rcases List.mem_append.mp hx with hx | hx
            · exact hav x hx
            · simp only [List.mem_singleton] at hx
              exact hx ▸ hadd.1
        · simp only [if_neg hadd]
          exact ih acc _ hlen hnd hav
    · simp only [if_neg hlt]
      exact ⟨hlen, hnd, hav⟩

/-- The common final step: options shuffled from the answer consed onto
distinct distractors that differ from it. -/
theorem shuffled_options_spec {answer : JStr} {ds options : List JStr} {s : RSrc}
    (hopt : options = (shuffleR (answer :: ds) s).1)
    (hnd : ds.Nodup) (hav : ∀ d ∈ ds, d ≠ answer) :
    options.length = ds.length + 1 ∧ options.Nodup
      ∧ options.countP (fun o => decide (o = answer)) = 1 := by
  have hperm : List.Perm options (answer :: ds) := hopt ▸ shuffleR_perm _ s
  refine ⟨by simpa using hperm.length_eq, ?_, ?_⟩
  · rw [hperm.nodup_iff]
    simp only [List.nodup_cons]
    exact ⟨fun hmem => (hav answer hmem) rfl, hnd⟩
  · rw [hperm.countP_eq]
    have hz : ds.countP (fun o => decide (o = answer)) = 0 := by
      rw [List.countP_eq_zero]
      intro x hx
      simpa using hav x hx
    rw [List.countP_cons, hz]
    simp

/-! ## Theorems: normalization -/

theorem normStr_idem (s : JStr) :
    jsUpper (jsTrim (jsUpper (jsTrim s))) = jsUpper (jsTrim s) := by
  rw [jsTrim_jsUpper, jsTrim_jsTrim, jsUpper_jsUpper]

/-- A normalized member string is fixed by upper-casing and has no
whitespace at its edges. -/
theorem normMember_head {x : JStr} {c : Char}
    (h : (jsUpper (jsTrim x)).head? = some c) : jsWhitespace c = false := by
  rw [jsUpper, List.head?_map] at h
  rcases hh : (jsTrim x).head? with _ | ⟨c₀⟩
  · rw [hh] at h
    simp at h
  · rw [hh] at h
    simp only [Option.map_some', Option.some.injEq] at h
    rw [← h, jsWhitespace_upChar]
    exact head?_jsTrim_not_ws hh

theorem normMember_getLast {x : JStr} {c : Char}
    (h : (jsUpper (jsTrim x)).getLast? = some c) : jsWhitespace c = false := by
  rw [jsUpper, List.getLast?_map] at h
  rcases hh : (jsTrim x).getLast? with _ | ⟨c₀⟩
  · rw [hh] at h
    simp at h
  · rw [hh] at h
    simp only [Option.map_some', Option.some.injEq] at h
    rw [← h, jsWhitespace_upChar]
    exact getLast?_jsTrim_not_ws hh

/-- The normalized form of an array answer is already trimmed and
upper-cased: re-normalizing it as a string changes nothing. -/
theorem normalizeAnswer_arr_normalized (a : List JStr) :
    jsUpper (jsTrim (normalizeAnswer (.arr a))) = normalizeAnswer (.arr a) := by
  have hmem : ∀ m ∈ sortStrs (a.map (fun x => jsUpper (jsTrim x))),
      ∃ x, m = jsUpper (jsTrim x) := by
    intro m hm
    have : m ∈ a.map (fun x => jsUpper (jsTrim x)) :=
      (sortStrs_perm _).mem_iff.mp hm
    obtain ⟨x, _, hx⟩ := List.mem_map.mp this
    exact ⟨x, hx.symm⟩
  set ms := sortStrs (a.map (fun x => jsUpper (jsTrim x))) with hms
  have htrim : jsTrim (joinComma ms) = joinComma ms := by
    apply jsTrim_eq_self_of_edges
    · intro c hc
      rcases head?_joinComma hc with he | ⟨m, hm, hhead⟩
      · subst he
        rfl
      · obtain ⟨x, hx⟩ := hmem m hm
        exact normMember_head (hx ▸ hhead)
    · intro c hc
      rcases getLast?_joinComma hc with he | ⟨m, hm, hlast⟩
      · subst he
        rfl
      · obtain ⟨x, hx⟩ := hmem m hm
        exact normMember_getLast (hx ▸ hlast)
  have hupper : jsUpper (joinComma ms) = joinComma ms := by
    rw [jsUpper_joinComma]
    congr 1
    have : ∀ m ∈ ms, jsUpper m = m := by
      intro m hm
      obtain ⟨x, hx⟩ := hmem m hm
      rw [hx, jsUpper_jsUpper]
    calc ms.map jsUpper = ms.map id := List.map_congr_left this
    _ = ms := List.map_id ms
  show jsUpper (jsTrim (joinComma ms)) = joinComma ms
  rw [htrim, hupper]

/-- Normalizing the string form of a normalized array answer is the
normalized array answer. -/
theorem normalizeAnswer_str_of_arr (a : List JStr) :
    normalizeAnswer (.str (normalizeAnswer (.arr a))) = normalizeAnswer (.arr a) :=
  normalizeAnswer_arr_normalized a

theorem isAnswerCorrect_self (x : Answer) : isAnswerCorrect x x = true := by
  unfold isAnswerCorrect
  simp

/-! ## Theorems: the code's scoring against the spec's set-based rule -/

theorem parsePositiveNums_ne_nil_iff (s : JStr) :
    parsePositiveNums s ≠ [] ↔ cellSet s ≠ ∅ := by
  unfold cellSet
  constructor
  · intro h hempty
    rcases hp : parsePositiveNums s with _ | ⟨q, t⟩
    · exact h hp
    · rw [hp] at hempty
      have : q ∈ (q :: t).toFinset := by simp
      rw [hempty] at this
      simp at this
  · intro h hnil
    rw [hnil] at h
    simp at h

/-- The code's `isAnswerCorrect` agrees exactly with the amended set-based
scoring rule. -/
theorem isAnswerCorrect_iff_specAccepts (submitted correct : Answer) :
    isAnswerCorrect submitted correct = true ↔ specAccepts submitted correct := by
  unfold isAnswerCorrect specAccepts
  by_cases heq : normalizeAnswer submitted = normalizeAnswer correct
  · simp [heq]
  · simp only [if_neg heq]
    cases correct with
    | str c =>
      simp [isArray, heq]
    | arr a =>
      simp only [isArray, true_and]
      by_cases hguard : parsePositiveNums (normalizeAnswer (.arr a)) = []
        ∨ parsePositiveNums (normalizeAnswer submitted) = []
      · simp only [if_pos hguard]
        constructor
        · intro h
          simp at h
        · rintro (h | ⟨hc, hs, _⟩)
          · exact absurd h heq
          · rcases hguard with hg | hg
            · exact absurd ((parsePositiveNums_ne_nil_iff _).mp
                (fun hnil => hc ((cellSet _).eq_empty_of_forall_not_mem
                  (by rw [cellSet, hnil]; simp)))) (by simp [hg, cellSet])
            · exact absurd ((parsePositiveNums_ne_nil_iff _).mp
                (fun hnil => hs ((cellSet _).eq_empty_of_forall_not_mem
                  (by rw [cellSet, hnil]; simp)))) (by simp [hg, cellSet])
      · simp only [if_neg hguard]
        push_neg at hguard
        obtain ⟨hc, hs⟩ := hguard
        have hc' := (parsePositiveNums_ne_nil_iff _).mp hc
        have hs' := (parsePositiveNums_ne_nil_iff _).mp hs
        rw [decide_eq_true_eq]
        unfold toleranceErrors cellSet
        rw [errorCount_jsSet_eq]
        constructor
        · intro h
          exact Or.inr ⟨hc', hs', h⟩
        · rintro (h | ⟨_, _, h⟩)
          · exact absurd h heq
          · exact h

/-! ## Claim theorems: store semantics (C2, C3, C9) -/

/-- C2: after `verify` has been called once for a given challenge id (whether
that call returned success or failure), any second `verify` call with the
same id — with no intervening `storeChallenge` — returns `success = false`:
the challenge is removed on the first attempt regardless of outcome. -/
theorem C2_single_use (st : Store) (r₁ r₂ : ChallengeResponse) (now₁ now₂ : ℤ)
    (hid : r₁.challengeId = r₂.challengeId) :
    (verify (verify st r₁ now₁).2 r₂ now₂).1.success = false := by
  unfold verify
  rcases h : storeGet st r₁.challengeId with _ | ⟨ch⟩
  · simp only
    rw [← hid, h]
  · simp only
    by_cases hexp : now₁ > ch.expiresAt
    · simp only [if_pos hexp, ← hid, storeGet_storeDelete]
    · simp only [if_neg hexp, ← hid, storeGet_storeDelete]

theorem C2_single_use_witness :
    (verify (verify [(jstr "c13", chCells13)]
        ⟨jstr "c13", .arr [jstr "1", jstr "3"]⟩ 0).2
      ⟨jstr "c13", .arr [jstr "1", jstr "3"]⟩ 0).1.success = false :=
  C2_single_use [(jstr "c13", chCells13)] ⟨jstr "c13", .arr [jstr "1", jstr "3"]⟩
    ⟨jstr "c13", .arr [jstr "1", jstr "3"]⟩ 0 0 rfl

/-- C3: a stored challenge whose `expiresAt` is strictly in the past at
verification time fails, whatever the submitted answer — even the exact
correct answer. -/
theorem C3_expired_fails (st : Store) (ch : Challenge) (resp : ChallengeResponse)
    (now : ℤ) (hfound : storeGet st resp.challengeId = some ch)
    (hexp : now > ch.expiresAt) :
    (verify st resp now).1.success = false := by
  unfold verify
  rw [hfound]
  simp [hexp]

theorem C3_expired_fails_witness :
    (verify [(jstr "c13", chCells13)]
      ⟨jstr "c13", .arr [jstr "1", jstr "3"]⟩ 2000).1.success = false :=
  C3_expired_fails [(jstr "c13", chCells13)]
    chCells13 ⟨jstr "c13", .arr [jstr "1", jstr "3"]⟩ 2000 (by decide) (by decide)

/-- C9: the expiry boundary is strict.  At `now = expiresAt` a stored
challenge is still scored — the result is the answer comparison, and the
exact correct answer succeeds — and `pruneExpired` keeps every entry whose
`expiresAt` equals the current time. -/
theorem C9_expiry_boundary :
    (∀ (st : Store) (ch : Challenge) (id : JStr) (ans : Answer),
      storeGet st id = some ch →
      (verify st ⟨id, ans⟩ ch.expiresAt).1.success = isAnswerCorrect ans ch.correctAnswer)
  ∧ (∀ (st : Store) (ch : Challenge) (id : JStr),
      storeGet st id = some ch →
      (verify st ⟨id, ch.correctAnswer⟩ ch.expiresAt).1.success = true)
  ∧ (∀ (st : Store) (now : ℤ) (p : JStr × Challenge),
      p ∈ st → p.2.expiresAt = now → p ∈ (pruneExpired st now).1) := by
  refine ⟨?_, ?_, ?_⟩
  · intro st ch id ans hfound
    unfold verify
    rw [hfound]
    simp
  · intro st ch id hfound
    unfold verify
    rw [hfound]
    simp [isAnswerCorrect_self]
  · intro st now p hmem hexp
    unfold pruneExpired
    simp only [List.mem_filter]
    refine ⟨hmem, ?_⟩
    simp [hexp]

theorem C9_expiry_boundary_witness :
    ((verify [(jstr "c13", chCells13)]
        ⟨jstr "c13", .arr [jstr "1", jstr "3"]⟩ 1000).1.success = true)
  ∧ (jstr "c13", chCells13) ∈ (pruneExpired [(jstr "c13", chCells13)] 1000).1 := by
  constructor
  · have h := C9_expiry_boundary.2.1 [(jstr "c13", chCells13)] chCells13
      (jstr "c13") (by decide)
    exact h
  · exact C9_expiry_boundary.2.2 [(jstr "c13", chCells13)] 1000
      (jstr "c13", chCells13) (by decide) (by decide)

/-! ## Claim theorems: normalization (C7) and array/string submissions (C10) -/

/-- C7: answer normalization is idempotent for string and array answers, and
neither leading/trailing whitespace nor letter case of the input affects the
normalized result. -/
theorem C7_normalization :
    (∀ s : JStr,
      normalizeAnswer (.str (normalizeAnswer (.str s))) = normalizeAnswer (.str s))
  ∧ (∀ a : List JStr,
      normalizeAnswer (.str (normalizeAnswer (.arr a))) = normalizeAnswer (.arr a))
  ∧ (∀ (s w₁ w₂ : JStr), WsOnly w₁ → WsOnly w₂ →
      normalizeAnswer (.str (w₁ ++ s ++ w₂)) = normalizeAnswer (.str s))
  ∧ (∀ s t : JStr, jsUpper s = jsUpper t →
      normalizeAnswer (.str s) = normalizeAnswer (.str t))
  ∧ (∀ a b : List JStr,
      List.Forall₂ (fun x y => ∃ w₁ w₂, WsOnly w₁ ∧ WsOnly w₂ ∧ y = w₁ ++ x ++ w₂) a b →
      normalizeAnswer (.arr b) = normalizeAnswer (.arr a))
  ∧ (∀ a b : List JStr, List.Forall₂ (fun x y => jsUpper x = jsUpper y) a b →
      normalizeAnswer (.arr a) = normalizeAnswer (.arr b)) := by
  have hcase : ∀ s t : JStr, jsUpper s = jsUpper t →
      jsUpper (jsTrim s) = jsUpper (jsTrim t) := by
    intro s t h
    rw [← jsTrim_jsUpper, h, jsTrim_jsUpper]
  refine ⟨fun s => normStr_idem s, normalizeAnswer_str_of_arr, ?_, ?_, ?_, ?_⟩
  · intro s w₁ w₂ h₁ h₂
    show jsUpper (jsTrim (w₁ ++ s ++ w₂)) = jsUpper (jsTrim s)
    rw [jsTrim_pad h₁ h₂]
  · intro s t h
    exact hcase s t h
  · intro a b hf
    show joinComma (sortStrs (b.map (fun x => jsUpper (jsTrim x))))
      = joinComma (sortStrs (a.map (fun x => jsUpper (jsTrim x))))
    have : b.map (fun x => jsUpper (jsTrim x)) = a.map (fun x => jsUpper (jsTrim x)) := by
      induction hf with
      | nil => rfl
      | cons hxy _ ih =>
        obtain ⟨w₁, w₂, hw₁, hw₂, hy⟩ := hxy
        simp only [List.map_cons, ih]
        rw [hy, jsTrim_pad hw₁ hw₂]
    rw [this]
  · intro a b hf
    show joinComma (sortStrs (a.map (fun x => jsUpper (jsTrim x))))
      = joinComma (sortStrs (b.map (fun x => jsUpper (jsTrim x))))
    have : a.map (fun x => jsUpper (jsTrim x)) = b.map (fun x => jsUpper (jsTrim x)) := by
      induction hf with
      | nil => rfl
      | cons hxy _ ih =>
        simp only [List.map_cons, ih]
        rw [hcase _ _ hxy]
    rw [this]

theorem C7_normalization_witness :
    (normalizeAnswer (.str (normalizeAnswer (.str (jstr " a ")))) = normalizeAnswer (.str (jstr " a ")))
  ∧ (normalizeAnswer (.str (jstr " b")) = normalizeAnswer (.str (jstr "b")))
  ∧ (normalizeAnswer (.arr [jstr "3", jstr "1"]) = normalizeAnswer (.arr [jstr " 3 ", jstr "1"]))
  ∧ (normalizeAnswer (.arr [jstr "a"]) = normalizeAnswer (.arr [jstr "A"])) := by
  refine ⟨C7_normalization.1 (jstr " a "), ?_, ?_, ?_⟩
  · exact C7_normalization.2.2.1 (jstr "b") [' '] [] (by decide) (by decide)
  · exact C7_normalization.2.2.2.2.1 [jstr "3", jstr "1"] [jstr " 3 ", jstr "1"]
      (List.Forall₂.cons ⟨[' '], [' '], by decide, by decide, rfl⟩
        (List.Forall₂.cons ⟨[], [], by decide, by decide, rfl⟩ List.Forall₂.nil))
  · exact C7_normalization.2.2.2.2.2 [jstr "a"] [jstr "A"]
      (List.Forall₂.cons (by decide) List.Forall₂.nil)

/-- C10: verification cannot distinguish an array submission from its
normalized string form — for every store, submitting the array and
submitting the trimmed/upper-cased, sorted, comma-joined string give the
same verification outcome — and in particular the plain string `"1,3"`
passes a stored select-all challenge whose `correctAnswer` is
`["1","3"]`. -/
theorem C10_array_string_indistinguishable :
    (∀ (st : Store) (now : ℤ) (id : JStr) (arr : List JStr),
      verify st ⟨id, .arr arr⟩ now
        = verify st ⟨id, .str (joinComma (sortStrs (arr.map (fun x => jsUpper (jsTrim x)))))⟩ now)
  ∧ (verify [(jstr "c13", chCells13)] ⟨jstr "c13", .str (jstr "1,3")⟩ 0).1.success = true := by
  constructor
  · intro st now id arr
    have hscore : ∀ correct : Answer,
        isAnswerCorrect (.arr arr) correct
          = isAnswerCorrect (.str (normalizeAnswer (.arr arr))) correct := by
      intro correct
      unfold isAnswerCorrect
      rw [show normalizeAnswer (.str (normalizeAnswer (.arr arr)))
        = normalizeAnswer (.arr arr) from normalizeAnswer_str_of_arr arr]
    unfold verify
    rcases h : storeGet st id with _ | ⟨ch⟩
    · simp only
    · simp only
      by_cases hexp : now > ch.expiresAt
      · simp [hexp]
      · simp only [if_neg hexp]
        rw [hscore ch.correctAnswer]
        rfl
  · decide

/-! ## Claim theorems: the verifier's scoring rule (C1) -/

/-- C1 counterexample: the claim's rule, taken as stated, accepts the
submission `"X"` against the stored select-all challenge with correct set
`{1}` (1 miss + 0 false positives ≤ 1), but `verify` rejects it: the code
additionally requires both parsed cell sets to be nonempty. -/
theorem C1_scoring_counterexample :
    claimAccepts (.str (jstr "X")) chSingleCell.correctAnswer
  ∧ (verify [(jstr "c1", chSingleCell)] ⟨jstr "c1", .str (jstr "X")⟩ 0).1.success = false := by
  constructor
  · decide
  · decide

/-- C1 (amended): for a stored, unexpired challenge, `verify` accepts iff
the normalized answers match exactly, or the correct answer is an array
(select-all), both parsed cell sets are nonempty, and misses plus false
positives are at most 1 — the amendment adds the two nonemptiness
requirements enforced by the code.  The boundary examples for correct set
`{1,3,7}` hold as stated, and a multiple-choice (string) correct answer is
accepted only on exact normalized match. -/
theorem C1_scoring_amended :
    (∀ (st : Store) (ch : Challenge) (resp : ChallengeResponse) (now : ℤ),
      storeGet st resp.challengeId = some ch → ¬ now > ch.expiresAt →
      (((verify st resp now).1.success = true) ↔ specAccepts resp.answer ch.correctAnswer))
  ∧ (isAnswerCorrect (.arr [jstr "1", jstr "3", jstr "7"])
        (.arr [jstr "1", jstr "3", jstr "7"]) = true
    ∧ isAnswerCorrect (.arr [jstr "1", jstr "3"])
        (.arr [jstr "1", jstr "3", jstr "7"]) = true
    ∧ isAnswerCorrect (.arr [jstr "1", jstr "3", jstr "7", jstr "9"])
        (.arr [jstr "1", jstr "3", jstr "7"]) = true
    ∧ isAnswerCorrect (.arr [jstr "1", jstr "7"])
        (.arr [jstr "1", jstr "3", jstr "7"]) = true
    ∧ isAnswerCorrect (.arr [jstr "1"])
        (.arr [jstr "1", jstr "3", jstr "7"]) = false
    ∧ isAnswerCorrect (.arr [jstr "1", jstr "3", jstr "7", jstr "9", jstr "2"])
        (.arr [jstr "1", jstr "3", jstr "7"]) = false)
  ∧ (∀ (sub : Answer) (c : JStr),
      isAnswerCorrect sub (.str c) = true
        ↔ normalizeAnswer sub = normalizeAnswer (.str c)) := by
  refine ⟨?_, by decide, ?_⟩
  · intro st ch resp now hfound hexp
    unfold verify
    rw [hfound]
    simp only [if_neg hexp]
    exact isAnswerCorrect_iff_specAccepts resp.answer ch.correctAnswer
  · intro sub c
    rw [isAnswerCorrect_iff_specAccepts]
    unfold specAccepts
    simp [isArray]

theorem C1_scoring_amended_witness :
    ((verify [(jstr "c13", chCells13)]
        ⟨jstr "c13", .arr [jstr "1", jstr "3"]⟩ 0).1.success = true)
  ∧ specAccepts (.arr [jstr "1", jstr "3"]) chCells13.correctAnswer
  ∧ (isAnswerCorrect (.str (jstr "B")) (.str (jstr " b ")) = true) := by
  have hspec : specAccepts (.arr [jstr "1", jstr "3"]) chCells13.correctAnswer := by
    decide
  refine ⟨?_, hspec, ?_⟩
  · exact (C1_scoring_amended.1 [(jstr "c13", chCells13)] chCells13
      ⟨jstr "c13", .arr [jstr "1", jstr "3"]⟩ 0 (by decide) (by decide)).mpr hspec
  · exact (C1_scoring_amended.2.2 (.str (jstr "B")) (jstr " b ")).mpr (by decide)

/-! ## Claim theorems: multiple-choice option sets (C4) -/

theorem randomPickR_mem {α : Type} (l : List α) (d : α) (s : RSrc) (h : l ≠ []) :
    (randomPickR l d s).1 ∈ l := by
  unfold randomPickR randomIntR
  have hlen : 0 < l.length := List.length_pos_of_ne_nil h
  have hlt : 0 + s.headD 0 % (l.length - 0) < l.length := by
    have := Nat.mod_lt (s.headD 0) (by omega : 0 < l.length - 0)
    omega
  simp only
  rw [List.getD_eq_getElem l d hlt]
  exact List.getElem_mem hlt

theorem illusoryShapes_filter_length {target : JStr} (h : target ∈ illusoryShapes) :
    (illusoryShapes.filter (fun o => decide (o ≠ target))).length = 6 := by
  fin_cases h <;> decide

set_option maxRecDepth 200000 in
/-- C4 counterexample: a possible run of the grid-overlay generator — the
all-zero draw sequence, under which every one of the 200 permutation
attempts produces the same permutation — yields an option list with only 2
entries, not 4 (grid-overlay has no fallback for its bounded distractor
search). -/
theorem C4_options_counterexample :
    (gridOverlayOptions []).2.2.length = 2 ∧ ¬ (gridOverlayOptions []).2.2.length = 4 := by
  constructor
  · decide
  · decide

/-- C4 (amended): for every run of every multiple-choice generator in which
the distractor search succeeded — three distractors found within the
bounded 200-attempt permutation search (grid-overlay, emerging-image), or
the pick loops terminated (partial-occlusion, proximity-text,
abutting-grating; always, for illusory-contours) — the returned option list
has exactly 4 pairwise-distinct entries, exactly one of them equal to the
correct answer.  Without that condition the count can fall short, as the
counterexample shows. -/
theorem C4_options_amended :
    (∀ (s : RSrc) (token : JStr) (ds options : List JStr),
      gridOverlayOptions s = (token, ds, options) → ds.length = 3 →
      options.length = 4 ∧ options.Nodup
        ∧ options.countP (fun o => decide (o = token)) = 1)
  ∧ (∀ (s : RSrc) (token : JStr) (ds options : List JStr),
      emergingImageOptions s = (token, ds, options) → ds.length = 3 →
      options.length = 4 ∧ options.Nodup
        ∧ options.countP (fun o => decide (o = token)) = 1)
  ∧ (∀ (fuel : ℕ) (s : RSrc) (word : JStr) (ds options : List JStr),
      partialOcclusionOptions fuel s = some (word, ds, options) →
      options.length = 4 ∧ options.Nodup
        ∧ options.countP (fun o => decide (o = word)) = 1)
  ∧ (∀ (fuel : ℕ) (s : RSrc) (ch : JStr) (ds options : List JStr),
      proximityTextOptions fuel s = some (ch, ds, options) →
      options.length = 4 ∧ options.Nodup
        ∧ options.countP (fun o => decide (o = ch)) = 1)
  ∧ (∀ (fuel : ℕ) (s : RSrc) (ch : JStr) (ds options : List JStr),
      abuttingGratingOptions fuel s = some (ch, ds, options) →
      options.length = 4 ∧ options.Nodup
        ∧ options.countP (fun o => decide (o = ch)) = 1)
  ∧ (∀ (s : RSrc) (target : JStr) (ds options : List JStr),
      illusoryContoursOptions s = (target, ds, options) →
      options.length = 4 ∧ options.Nodup
        ∧ options.countP (fun o => decide (o = target)) = 1) := by
  have hperm : ∀ (alphabet : JStr) (s : RSrc) (token : JStr) (ds options : List JStr),
      ((generateRandomToken alphabet s).1,
        (generatePermutationDistractors (generateRandomToken alphabet s).1 3
          (generateRandomToken alphabet s).2).1,
        (shuffleR ((generateRandomToken alphabet s).1 ::
            (generatePermutationDistractors (generateRandomToken alphabet s).1 3
              (generateRandomToken alphabet s).2).1)
          (generatePermutationDistractors (generateRandomToken alphabet s).1 3
            (generateRandomToken alphabet s).2).2).1) = (token, ds, options) →
      ds.length = 3 →
      options.length = 4 ∧ options.Nodup
        ∧ options.countP (fun o => decide (o = token)) = 1 := by
    intro alphabet s token ds options heq hlen
    simp only [Prod.mk.injEq] at heq
    obtain ⟨htok, hds, hopt⟩ := heq
    subst htok
    subst hds
    have hspec := permDistractorLoop_spec (generateRandomToken alphabet s).1 3 200 []
      (generateRandomToken alphabet s).2 (by simp) (by simp)
    have h := shuffled_options_spec hopt.symm hspec.1 hspec.2
    rw [hlen] at h
    exact h
  have hpick : ∀ (pool : List JStr) (avoid : JStr) (fuel : ℕ) (acc : List JStr)
      (s₂ : RSrc) (ds : List JStr) (s₃ : RSrc) (options : List JStr),
      acc.length ≤ 3 → acc.Nodup → (∀ d ∈ acc, d ≠ avoid) →
      pickUniqueLoop pool avoid 3 fuel acc s₂ = some (ds, s₃) →
      options = (shuffleR (avoid :: ds) s₃).1 →
      options.length = 4 ∧ options.Nodup
        ∧ options.countP (fun o => decide (o = avoid)) = 1 := by
    intro pool avoid fuel acc s₂ ds s₃ options hlen hnd hav hloop hopt
    obtain ⟨hl3, hdnd, hdav⟩ := pickUniqueLoop_spec pool avoid 3 fuel acc s₂
      hlen hnd hav ds s₃ hloop
    have h := shuffled_options_spec hopt hdnd hdav
    rw [hl3] at h
    exact h
  refine ⟨?_, ?_, ?_, ?_, ?_, ?_⟩
  · intro s token ds options heq hlen
    exact hperm gridOverlayAlphabet s token ds options heq hlen
  · intro s token ds options heq hlen
    exact hperm emergingImageAlphabet s token ds options heq hlen
  · intro fuel s word ds options heq
    unfold partialOcclusionOptions at heq
    dsimp only at heq
    rcases hloop : pickUniqueLoop poWords (randomPickR poWords [] s).1 3 fuel
        (poSubstLoop (randomPickR poWords [] s).1 3 50 [] (randomPickR poWords [] s).2).1
        (poSubstLoop (randomPickR poWords [] s).1 3 50 [] (randomPickR poWords [] s).2).2
      with _ | ⟨ds', s₃⟩
    · rw [hloop] at heq
      simp at heq
    · rw [hloop] at heq
      simp only [Option.some.injEq, Prod.mk.injEq] at heq
      obtain ⟨hw, hds, hopt⟩ := heq
      have hsub := poSubstLoop_spec (randomPickR poWords [] s).1 3 50
        [] (randomPickR poWords [] s).2 (by simp) (by simp) (by simp)
      have hmain := hpick poWords (randomPickR poWords [] s).1 fuel _ _ ds' s₃
        ((shuffleR ((randomPickR poWords [] s).1 :: ds') s₃).1)
        hsub.1 hsub.2.1 hsub.2.2 hloop rfl
      rw [hw, hds] at hmain hopt
      rw [hopt] at hmain
      exact hmain
  · intro fuel s ch ds options heq
    unfold proximityTextOptions at heq
    dsimp only at heq
    rcases hloop : pickUniqueLoop evalChars (randomPickR evalChars [] s).1 3 fuel []
        (randomPickR evalChars [] s).2 with _ | ⟨ds', s₂⟩
    · rw [hloop] at heq
      simp at heq
    · rw [hloop] at heq
      simp only [Option.some.injEq, Prod.mk.injEq] at heq
      obtain ⟨hc, hds, hopt⟩ := heq
      have hmain := hpick evalChars (randomPickR evalChars [] s).1 fuel [] _ ds' s₂
        ((shuffleR ((randomPickR evalChars [] s).1 :: ds') s₂).1)
        (by simp) (by simp) (by simp) hloop rfl
      rw [hc, hds] at hmain hopt
      rw [hopt] at hmain
      exact hmain
  · intro fuel s ch ds options heq
    unfold abuttingGratingOptions at heq
    dsimp only at heq
    rcases hloop : pickUniqueLoop evalChars (randomPickR evalChars [] s).1 3 fuel []
        (randomPickR evalChars [] s).2 with _ | ⟨ds', s₂⟩
    · rw [hloop] at heq
      simp at heq
    · rw [hloop] at heq
      simp only [Option.some.injEq, Prod.mk.injEq] at heq
      obtain ⟨hc, hds, hopt⟩ := heq
      have hmain := hpick evalChars (randomPickR evalChars [] s).1 fuel [] _ ds' s₂
        ((shuffleR ((randomPickR evalChars [] s).1 :: ds') s₂).1)
        (by simp) (by simp) (by simp) hloop rfl
      rw [hc, hds] at hmain hopt
      rw [hopt] at hmain
      exact hmain
  · intro s target ds options heq
    unfold illusoryContoursOptions at heq
    dsimp only at heq
    simp only [Prod.mk.injEq] at heq
    obtain ⟨htar, hds, hopt⟩ := heq
    have htmem : (randomPickR illusoryShapes [] s).1 ∈ illusoryShapes :=
      randomPickR_mem illusoryShapes [] s (by decide)
    have hfl := illusoryShapes_filter_length htmem
    have hshnd : (shuffleR (illusoryShapes.filter
        (fun o => decide (o ≠ (randomPickR illusoryShapes [] s).1)))
        (randomPickR illusoryShapes [] s).2).1.Nodup :=
      shuffleR_nodup (List.Nodup.filter _ (by decide)) _
    have hdnd : ds.Nodup := by
      rw [← hds]
      exact List.Nodup.sublist (List.take_sublist _ _) hshnd
    have hdav : ∀ d ∈ ds, d ≠ target := by
      intro d hd
      rw [← hds] at hd
      have hd₂ := List.take_subset _ _ hd
      rw [mem_shuffleR] at hd₂
      have hne := (List.mem_filter.mp hd₂).2
      rw [← htar]
      simpa using hne
    have hdl : ds.length = 3 := by
      rw [← hds, List.length_take, shuffleR_length, hfl]
      decide
    rw [hds] at hopt
    rw [htar] at hopt
    have h := shuffled_options_spec hopt.symm hdnd hdav
    rw [hdl] at h
    exact h

set_option maxRecDepth 400000 in
theorem C4_options_amended_witness :
    ((gridOverlayOptions (List.range 40)).2.1.length = 3
      ∧ (gridOverlayOptions (List.range 40)).2.2.length = 4)
  ∧ ((emergingImageOptions (List.range 40)).2.1.length = 3
      ∧ (emergingImageOptions (List.range 40)).2.2.length = 4)
  ∧ ((partialOcclusionOptions 10 [0, 0, 0, 1, 0, 2, 0]).map
        (fun t => t.2.2.length) = some 4)
  ∧ ((proximityTextOptions 10 [0, 1, 2, 3]).map (fun t => t.2.2.length) = some 4)
  ∧ ((abuttingGratingOptions 10 [0, 1, 2, 3]).map (fun t => t.2.2.length) = some 4)
  ∧ ((illusoryContoursOptions []).2.2.length = 4) := by
  refine ⟨⟨by decide, ?_⟩, ⟨by decide, ?_⟩, ?_, ?_, ?_, ?_⟩
  · exact (C4_options_amended.1 (List.range 40) (gridOverlayOptions (List.range 40)).1
      (gridOverlayOptions (List.range 40)).2.1 (gridOverlayOptions (List.range 40)).2.2
      rfl (by decide)).1
  · exact (C4_options_amended.2.1 (List.range 40) (emergingImageOptions (List.range 40)).1
      (emergingImageOptions (List.range 40)).2.1 (emergingImageOptions (List.range 40)).2.2
      rfl (by decide)).1
  · have h := (C4_options_amended.2.2.1 10 [0, 0, 0, 1, 0, 2, 0]
      (jstr "ALPHA") [jstr "HLPHA", jstr "AIPHA", jstr "ALBHA"]
      [jstr "HLPHA", jstr "AIPHA", jstr "ALBHA", jstr "ALPHA"] (by decide)).1
    rw [show partialOcclusionOptions 10 [0, 0, 0, 1, 0, 2, 0]
      = some (jstr "ALPHA", [jstr "HLPHA", jstr "AIPHA", jstr "ALBHA"],
        [jstr "HLPHA", jstr "AIPHA", jstr "ALBHA", jstr "ALPHA"]) from by decide]
    simp [h]
  · have h := (C4_options_amended.2.2.2.1 10 [0, 1, 2, 3]
      (jstr "A") [jstr "B", jstr "C", jstr "D"]
      [jstr "B", jstr "C", jstr "D", jstr "A"] (by decide)).1
    rw [show proximityTextOptions 10 [0, 1, 2, 3]
      = some (jstr "A", [jstr "B", jstr "C", jstr "D"],
        [jstr "B", jstr "C", jstr "D", jstr "A"]) from by decide]
    simp [h]
  · have h := (C4_options_amended.2.2.2.2.1 10 [0, 1, 2, 3]
      (jstr "A") [jstr "B", jstr "C", jstr "D"]
      [jstr "B", jstr "C", jstr "D", jstr "A"] (by decide)).1
    rw [show abuttingGratingOptions 10 [0, 1, 2, 3]
      = some (jstr "A", [jstr "B", jstr "C", jstr "D"],
        [jstr "B", jstr "C", jstr "D", jstr "A"]) from by decide]
    simp [h]
  · exact (C4_options_amended.2.2.2.2.2 [] (jstr "Square")
      [jstr "Diamond", jstr "Pentagon", jstr "Hexagon"]
      [jstr "Diamond", jstr "Pentagon", jstr "Hexagon", jstr "Square"] (by decide)).1

/-! ## Claim theorems: the illusion-faces generator (C6) -/

/-- C6: every challenge produced by the illusion-faces (select-all)
generator has exactly 9 images and no `options` field, and its
`correctAnswer` is a sorted array of distinct cell-index strings drawn from
`"1"`..`"9"` whose length is between 2 and 5 inclusive. -/
theorem C6_illusion_faces (env : IllusionFacesEnv) (shellId : JStr) (now : ℤ)
    (ch : Challenge) (hgen : illusionFacesGenerate env shellId now = some ch)
    (h0 : 0 ≤ env.rFace) (h1 : env.rFace < 1) :
    ch.images.length = 9 ∧ ch.options = none
  ∧ ∃ cells : List ℕ, ch.correctAnswer = .arr (cells.map digitStr)
      ∧ cells.Pairwise (· < ·)
      ∧ (∀ k ∈ cells, 1 ≤ k ∧ k ≤ 9)
      ∧ 2 ≤ cells.length ∧ cells.length ≤ 5
      ∧ (cells.map digitStr).Pairwise jstrLe
      ∧ (cells.map digitStr).Nodup := by
  unfold illusionFacesGenerate at hgen
  split at hgen
  · exact absurd hgen (by simp)
  · split at hgen
    · exact absurd hgen (by simp)
    · rw [Option.some.injEq] at hgen
      subst hgen
      -- the cell count is between 2 and 5
      have h4 : ((6 : ℚ) - (2 : ℚ)) = 4 := by norm_num
      have hlow : (2 : ℤ) ≤ mathRandomInt 2 6 env.rFace := by
        unfold mathRandomInt
        rw [Int.le_floor]
        push_cast
        nlinarith
      have hhigh : mathRandomInt 2 6 env.rFace < 6 := by
        unfold mathRandomInt
        rw [Int.floor_lt]
        push_cast
        nlinarith
      set fc := (mathRandomInt 2 6 env.rFace).toNat with hfc
      have hfc2 : 2 ≤ fc := by omega
      have hfc5 : fc ≤ 5 := by omega
      set taken := (shuffleR (List.range' 1 9) env.stream).1.take fc with htaken
      have htlen : taken.length = fc := by
        rw [htaken, List.length_take, shuffleR_length, List.length_range']
        omega
      have htnd : taken.Nodup :=
        List.Nodup.sublist (List.take_sublist _ _)
          (shuffleR_nodup (l := List.range' 1 9) (by decide) env.stream)
      have htmem : ∀ k ∈ taken, 1 ≤ k ∧ k ≤ 9 := by
        intro k hk₂
        have := List.take_subset _ _ hk₂
        rw [mem_shuffleR] at this
        rw [List.mem_range'_1] at this
        omega
      set cells := sortNats taken with hcells
      have hperm := sortNats_perm taken
      have hclen : cells.length = fc := by
        rw [hperm.length_eq, htlen]
      have hcnd : cells.Nodup := hperm.nodup_iff.mpr htnd
      have hcmem : ∀ k ∈ cells, 1 ≤ k ∧ k ≤ 9 := by
        intro k hk₂
        exact htmem k (hperm.mem_iff.mp hk₂)
      have hcsorted : cells.Pairwise (· < ·) := by
        have hle := sortNats_sorted taken
        have hne : cells.Pairwise (· ≠ ·) := hcnd
        exact (hle.and hne).imp (fun h => lt_of_le_of_ne h.1 h.2)
      have hmono : ∀ a ∈ List.range' 1 9, ∀ b ∈ List.range' 1 9,
          a < b → jstrLe (digitStr a) (digitStr b) := by decide
      have hinj : ∀ a ∈ List.range' 1 9, ∀ b ∈ List.range' 1 9,
          digitStr a = digitStr b → a = b := by decide
      have hmem19 : ∀ k ∈ cells, k ∈ List.range' 1 9 := by
        intro k hk₂
        rw [List.mem_range'_1]
        have := hcmem k hk₂
        omega
      refine ⟨by simp, rfl, cells, rfl, hcsorted, hcmem, by omega, by omega, ?_, ?_⟩
      · rw [List.pairwise_map]
        exact List.Pairwise.imp_of_mem
          (fun ha hb hab => hmono _ (hmem19 _ ha) _ (hmem19 _ hb) hab) hcsorted
      · exact List.Nodup.map_on
          (fun a ha b hb hab => hinj a (hmem19 a ha) b (hmem19 b hb) hab) hcnd

theorem C6_illusion_faces_witness :
    ∃ ch, illusionFacesGenerate envC6 (jstr "id") 0 = some ch
      ∧ ch.images.length = 9 ∧ ch.options = none := by
  rcases hgen : illusionFacesGenerate envC6 (jstr "id") 0 with _ | ⟨ch⟩
  · exfalso
    revert hgen
    decide
  · have h := C6_illusion_faces envC6 (jstr "id") 0 ch hgen (by decide) (by decide)
    exact ⟨ch, rfl, h.1, h.2.1⟩

/-! ## Claim theorems: the eval harness survives transport errors (C8) -/

/-- C8: in an eval run, a model call that throws on a single challenge is
recorded as a per-challenge result with `correct = false` and
`latencyMs = 0`, and the run still produces a result for every model and
every challenge instead of aborting. -/
theorem C8_transport_error (oracle : AgentOracle)
    (runId timestamp generatorId : JStr) (challenges : List Challenge)
    (models : List ModelConfig) (hne : challenges ≠ []) :
    ∃ run : EvalRun,
      runEvalOnChallenges oracle runId timestamp generatorId challenges models
        = .ok run
      ∧ run.modelResults.length = models.length
      ∧ (∀ i : ℕ, Option.map (fun mr : ModelResult => mr.challenges.length)
            run.modelResults[i]?
          = Option.map (fun _ => challenges.length) models[i]?)
      ∧ ∀ (i j : ℕ) model challenge msg,
          models[i]? = some model → challenges[j]? = some challenge →
          oracle model challenge = .error msg →
          Option.map (fun mr : ModelResult =>
              Option.map (fun r : EvalChallengeResult => (r.correct, r.latencyMs))
                mr.challenges[j]?)
            run.modelResults[i]?
            = some (some (false, 0)) := by
  have hne' : ¬ challenges.length = 0 := by
    intro h
    exact hne (List.length_eq_zero.mp h)
  unfold runEvalOnChallenges
  rw [if_neg hne']
  refine ⟨_, rfl, ?_, ?_, ?_⟩
  · simp
  · intro i
    dsimp only
    rw [List.getElem?_map]
    rcases hm : models[i]? with _ | ⟨model⟩
    · rfl
    · simp
  · intro i j model challenge msg hmi hcj horacle
    dsimp only
    rw [List.getElem?_map, hmi]
    simp only [Option.map_some']
    congr 1
    dsimp only
    rw [List.getElem?_map, hcj]
    simp only [Option.map_some']
    congr 1
    unfold scoreChallenge
    rw [horacle]

theorem C8_transport_error_witness :
    ∃ run, runEvalOnChallenges flakyAgent (jstr "r") (jstr "t") (jstr "g")
        [chCells147, chCells25] [mEval] = .ok run
      ∧ run.modelResults.length = 1
      ∧ Option.map (fun mr : ModelResult =>
            Option.map (fun r : EvalChallengeResult => (r.correct, r.latencyMs))
              mr.challenges[0]?)
          run.modelResults[0]?
          = some (some (false, 0)) := by
  obtain ⟨run, hok, hlen, _, herr⟩ := C8_transport_error flakyAgent
    (jstr "r") (jstr "t") (jstr "g") [chCells147, chCells25] [mEval] (by decide)
  exact ⟨run, hok, hlen, herr 0 0 mEval chCells147 (jstr "ECONNRESET") rfl rfl rfl⟩

/-! ## Theorems: digit strings and their parses (toward C5) -/

theorem mem_range19 {k : ℕ} : k ∈ List.range' 1 9 ↔ 1 ≤ k ∧ k ≤ 9 := by
  rw [List.mem_range'_1]
  omega

theorem digitStr_facts : ∀ k ∈ List.range' 1 9,
    jsNumber (digitStr k) = some (k : ℚ)
    ∧ jsUpper (digitStr k) = digitStr k
    ∧ jsTrim (digitStr k) = digitStr k
    ∧ digitStr k ≠ []
    ∧ ',' ∉ digitStr k
    ∧ (∀ c ∈ digitStr k, isDigit19 c = true) := by decide

theorem digitStr_mono : ∀ a ∈ List.range' 1 9, ∀ b ∈ List.range' 1 9,
    a < b → jstrLe (digitStr a) (digitStr b) := by decide

theorem not_ws_of_digit19 {c : Char} (h : isDigit19 c = true) :
    jsWhitespace c = false := by
  rcases hb : jsWhitespace c with _ | _
  · rfl
  · exfalso
    unfold jsWhitespace at hb
    simp only [Bool.or_eq_true, decide_eq_true_eq] at hb
    rcases hb with ((((rfl | rfl) | rfl) | rfl) | rfl) | rfl <;> exact absurd h (by decide)

theorem upChar_digit19 (c : Char) : isDigit19 (upChar c) = isDigit19 c := by
  by_cases h : c ∈ lowerUpperPairs.map Prod.fst
  · fin_cases h <;> decide
  · rw [upChar_eq_self_of_not_lower h]

theorem mem_of_head?_eq {α : Type} {l : List α} {c : α} (h : l.head? = some c) :
    c ∈ l := by
  cases l with
  | nil => simp at h
  | cons a t =>
    simp only [List.head?_cons, Option.some.injEq] at h
    simp [h]

theorem mem_of_getLast?_eq {α : Type} {l : List α} {c : α}
    (h : l.getLast? = some c) : c ∈ l := by
  rw [← List.head?_reverse] at h
  rw [← List.mem_reverse]
  exact mem_of_head?_eq h

/-- A comma-join of cell-digit strings is fixed by upper-casing and by
trimming. -/
theorem joinDigits_fixed {cells : List ℕ}
    (hmem : ∀ k ∈ cells, k ∈ List.range' 1 9) :
    jsUpper (joinComma (cells.map digitStr)) = joinComma (cells.map digitStr)
    ∧ jsTrim (joinComma (cells.map digitStr)) = joinComma (cells.map digitStr) := by
  have hm : ∀ m ∈ cells.map digitStr, ∃ k ∈ List.range' 1 9, m = digitStr k := by
    intro m hmm
    obtain ⟨k, hk, hkm⟩ := List.mem_map.mp hmm
    exact ⟨k, hmem k hk, hkm.symm⟩
  constructor
  · rw [jsUpper_joinComma]
    congr 1
    calc (cells.map digitStr).map jsUpper
        = (cells.map digitStr).map id := by
          apply List.map_congr_left
          intro m hmm
          obtain ⟨k, hk, rfl⟩ := hm m hmm
          exact (digitStr_facts k hk).2.1
    _ = cells.map digitStr := List.map_id _
  · apply jsTrim_eq_self_of_edges
    · intro c hc
      rcases head?_joinComma hc with rfl | ⟨m, hmm, hhead⟩
      · rfl
      · obtain ⟨k, hk, rfl⟩ := hm m hmm
        exact not_ws_of_digit19
          ((digitStr_facts k hk).2.2.2.2.2 c (mem_of_head?_eq hhead))
    · intro c hc
      rcases getLast?_joinComma hc with rfl | ⟨m, hmm, hlast⟩
      · rfl
      · obtain ⟨k, hk, rfl⟩ := hm m hmm
        exact not_ws_of_digit19
          ((digitStr_facts k hk).2.2.2.2.2 c (mem_of_getLast?_eq hlast))

theorem splitComma_joinDigits {cells : List ℕ} (hne : cells ≠ [])
    (hmem : ∀ k ∈ cells, k ∈ List.range' 1 9) :
    splitComma (joinComma (cells.map digitStr)) = cells.map digitStr := by
  apply splitComma_joinComma
  · intro m hmm
    obtain ⟨k, hk, hkm⟩ := List.mem_map.mp hmm
    rw [← hkm]
    exact (digitStr_facts k (hmem k hk)).2.2.2.2.1
  · simpa using hne

theorem filterMap_jsNumber_digits {cells : List ℕ}
    (hmem : ∀ k ∈ cells, k ∈ List.range' 1 9) :
    (cells.map digitStr).filterMap jsNumber = cells.map (fun k : ℕ => (k : ℚ)) := by
  induction cells with
  | nil => rfl
  | cons k t ih =>
    have hk := hmem k (by simp)
    simp only [List.map_cons, List.filterMap_cons, (digitStr_facts k hk).1]
    rw [ih (fun x hx => hmem x (List.mem_cons_of_mem _ hx))]

/-- The verifier's positive-number extraction on a cell join. -/
theorem parsePositiveNums_joinDigits {cells : List ℕ} (hne : cells ≠ [])
    (hmem : ∀ k ∈ cells, k ∈ List.range' 1 9) :
    parsePositiveNums (joinComma (cells.map digitStr))
      = cells.map (fun k : ℕ => (k : ℚ)) := by
  unfold parsePositiveNums
  rw [splitComma_joinDigits hne hmem, filterMap_jsNumber_digits hmem]
  apply List.filter_eq_self.mpr
  intro q hq
  obtain ⟨k, hk, hkq⟩ := List.mem_map.mp hq
  have := (mem_range19.mp (hmem k hk)).1
  rw [← hkq]
  simp only [decide_eq_true_eq]
  exact_mod_cast Nat.pos_of_ne_zero (by omega)

/-- The eval runner's number extraction on a cell join. -/
theorem evalNums_joinDigits {cells : List ℕ} (hne : cells ≠ [])
    (hmem : ∀ k ∈ cells, k ∈ List.range' 1 9) :
    (((splitComma (joinComma (cells.map digitStr))).map jsTrim).filter
        (fun m => !m.isEmpty)).filterMap jsNumber
      = cells.map (fun k : ℕ => (k : ℚ)) := by
  rw [splitComma_joinDigits hne hmem]
  have htrim : (cells.map digitStr).map jsTrim = cells.map digitStr := by
    calc (cells.map digitStr).map jsTrim
        = (cells.map digitStr).map id := by
          apply List.map_congr_left
          intro m hmm
          obtain ⟨k, hk, hkm⟩ := List.mem_map.mp hmm
          rw [← hkm]
          exact (digitStr_facts k (hmem k hk)).2.2.1
    _ = cells.map digitStr := List.map_id _
  rw [htrim]
  have hfilter : (cells.map digitStr).filter (fun m => !m.isEmpty)
      = cells.map digitStr := by
    apply List.filter_eq_self.mpr
    intro m hmm
    obtain ⟨k, hk, hkm⟩ := List.mem_map.mp hmm
    have := (digitStr_facts k (hmem k hk)).2.2.2.1
    rw [← hkm]
    simpa using this
  rw [hfilter, filterMap_jsNumber_digits hmem]

theorem digitVal_range_of_digit19 {c : Char} (h : isDigit19 c = true) :
    1 ≤ digitVal c ∧ digitVal c ≤ 9 := by
  simp only [isDigit19, Bool.and_eq_true, decide_eq_true_eq] at h
  have h1 : 49 ≤ c.toNat := h.1
  have h2 : c.toNat ≤ 57 := h.2
  unfold digitVal
  omega

/-- What the select-all branch of `parseAnswer` returns: either a sorted
comma-join of distinct cell digits, or — when the cleaned response contains
no digit `1`–`9` — the cleaned response itself. -/
theorem parseAnswerGrid_spec (cleaned : JStr) :
    (∃ D : List ℕ, D ≠ [] ∧ (∀ k ∈ D, k ∈ List.range' 1 9) ∧ D.Pairwise (· < ·) ∧
       parseAnswerGrid cleaned = joinComma (D.map digitStr))
    ∨ ((∀ c ∈ cleaned, isDigit19 c = false) ∧ parseAnswerGrid cleaned = cleaned) := by
  unfold parseAnswerGrid
  by_cases hd : (cleaned.filter isDigit19).isEmpty
  · right
    refine ⟨?_, by rw [if_pos hd]⟩
    intro c hc
    rcases hb : isDigit19 c with _ | _
    · rfl
    · exfalso
      have : c ∈ cleaned.filter isDigit19 := List.mem_filter.mpr ⟨hc, hb⟩
      rw [List.isEmpty_iff] at hd
      rw [hd] at this
      simp at this
  · left
    refine ⟨sortNats (jsSet ((cleaned.filter isDigit19).map digitVal)), ?_, ?_, ?_,
      by rw [if_neg hd]; rfl⟩
    · -- nonempty: the digit list is nonempty, and dedup and sort keep that
      intro hnil
      have hne : cleaned.filter isDigit19 ≠ [] := by
        intro h
        rw [List.isEmpty_iff] at hd
        exact hd h
      rcases hfd : (cleaned.filter isDigit19).map digitVal with _ | ⟨v, vs⟩
      · exact hne (by simpa using hfd)
      · have : v ∈ sortNats (jsSet ((cleaned.filter isDigit19).map digitVal)) := by
          rw [(sortNats_perm _).mem_iff, mem_jsSet, hfd]
          simp
        rw [hnil] at this
        simp at this
    · intro k hk
      rw [(sortNats_perm _).mem_iff, mem_jsSet] at hk
      obtain ⟨c, hc, hck⟩ := List.mem_map.mp hk
      have h19 := (List.mem_filter.mp hc).2
      have := digitVal_range_of_digit19 h19
      rw [mem_range19, ← hck]
      exact this
    · have hle := sortNats_sorted (jsSet ((cleaned.filter isDigit19).map digitVal))
      have hnd : (sortNats (jsSet ((cleaned.filter isDigit19).map digitVal))).Nodup :=
        (sortNats_perm _).nodup_iff.mpr (nodup_jsSet _)
      exact (hle.and hnd).imp (fun h => lt_of_le_of_ne h.1 h.2)

/-- Characters of the parts of a comma-split belong to the split string. -/
theorem mem_of_mem_splitComma {s m : JStr} (hm : m ∈ splitComma s) {c : Char}
    (hc : c ∈ m) : c ∈ s := by
  have hround : joinComma (splitComma s) = s := List.intercalate_splitOn s ','
  rw [← hround]
  exact mem_joinComma_of_mem hm hc

/-- On a digit-free string, the verifier's positive-number extraction is
empty. -/
theorem parsePositiveNums_of_no_digit19 {p : JStr}
    (hdf : ∀ c ∈ p, isDigit19 c = false) : parsePositiveNums p = [] := by
  unfold parsePositiveNums
  rw [List.filter_eq_nil_iff]
  intro q hq
  obtain ⟨m, hm, hmq⟩ := List.mem_filterMap.mp hq
  have hmdf : ∀ c ∈ m, isDigit19 c = false :=
    fun c hc => hdf c (mem_of_mem_splitComma hm hc)
  rcases jsNumber_of_no_digit19 hmdf with h | h
  · rw [h] at hmq
    simp at hmq
  · rw [h] at hmq
    injection hmq with hq0
    subst hq0
    simp

/-- On a digit-free string, every number the eval runner extracts is zero. -/
theorem evalNums_of_no_digit19 {p : JStr}
    (hdf : ∀ c ∈ p, isDigit19 c = false) :
    ∀ q ∈ (((splitComma p).map jsTrim).filter
        (fun m => !m.isEmpty)).filterMap jsNumber, q = 0 := by
  intro q hq
  obtain ⟨m, hm, hmq⟩ := List.mem_filterMap.mp hq
  have hm₂ := List.mem_filter.mp hm
  obtain ⟨m₀, hm₀, hmm₀⟩ := List.mem_map.mp hm₂.1
  have hmdf : ∀ c ∈ m, isDigit19 c = false := by
    intro c hc
    rw [← hmm₀] at hc
    exact hdf c (mem_of_mem_splitComma hm₀ (mem_of_mem_jsTrim hc))
  rcases jsNumber_of_no_digit19 hmdf with h | h
  · rw [h] at hmq
    simp at hmq
  · rw [h] at hmq
    injection hmq with hq0
    exact hq0.symm

theorem jsSet_ne_nil {α : Type} [DecidableEq α] {l : List α} (h : l ≠ []) :
    jsSet l ≠ [] := by
  cases l with
  | nil => exact absurd rfl h
  | cons a t =>
    intro hcon
    have hstep : jsSet (a :: t) = a :: (jsSet t).filter (fun x => decide (x ≠ a)) := rfl
    rw [hstep] at hcon
    exact List.cons_ne_nil _ _ hcon

/-- The tolerance error count between a nonempty set of positive cells and
the set `{0}` always exceeds 1. -/
theorem errorCount_pos_zero {cellsQ : List ℚ} (hne : cellsQ ≠ [])
    (hpos : ∀ q ∈ cellsQ, 0 < q) :
    ¬ errorCount (jsSet cellsQ) [0] ≤ 1 := by
  unfold errorCount
  have h1 : (jsSet cellsQ).countP (fun n => decide (n ∉ ([(0 : ℚ)] : List ℚ)))
      = (jsSet cellsQ).length := by
    rw [List.countP_eq_length]
    intro q hq
    have := hpos q (mem_jsSet.mp hq)
    simp only [List.mem_singleton, decide_eq_true_eq]
    exact fun h0 => absurd (h0 ▸ this) (lt_irrefl 0)
  have h2 : ([(0 : ℚ)] : List ℚ).countP (fun n => decide (n ∉ jsSet cellsQ)) = 1 := by
    have h0 : (0 : ℚ) ∉ jsSet cellsQ := by
      intro hmem
      exact absurd (hpos 0 (mem_jsSet.mp hmem)) (lt_irrefl 0)
    simp [List.countP_cons, h0]
  have h3 : 1 ≤ (jsSet cellsQ).length := by
    rcases hj : jsSet cellsQ with _ | ⟨a, t⟩
    · exact absurd hj (jsSet_ne_nil hne)
    · simp
  omega

/-- Normalizing a well-formed select-all correct answer (sorted distinct
cell digits) is just the comma-join. -/
theorem normalizeAnswer_joinDigits {cells : List ℕ}
    (hsorted : cells.Pairwise (· < ·))
    (hmem : ∀ k ∈ cells, k ∈ List.range' 1 9) :
    normalizeAnswer (.arr (cells.map digitStr)) = joinComma (cells.map digitStr) := by
  show joinComma (sortStrs ((cells.map digitStr).map (fun x => jsUpper (jsTrim x))))
    = joinComma (cells.map digitStr)
  have hmap : (cells.map digitStr).map (fun x => jsUpper (jsTrim x))
      = cells.map digitStr := by
    calc (cells.map digitStr).map (fun x => jsUpper (jsTrim x))
        = (cells.map digitStr).map id := by
          apply List.map_congr_left
          intro m hmm
          obtain ⟨k, hk, rfl⟩ := List.mem_map.mp hmm
          have hf := digitStr_facts k (hmem k hk)
          simp only [hf.2.2.1, hf.2.1, id]
    _ = cells.map digitStr := List.map_id _
  rw [hmap]
  congr 1
  apply sortStrs_of_sorted
  rw [List.pairwise_map]
  exact hsorted.imp_of_mem (fun {a b} ha hb hlt =>
    digitStr_mono a (hmem a ha) b (hmem b hb) hlt)

/-- On a parsed answer that is itself a join of cell digits, the eval
runner's scoring and the verifier's scoring agree. -/
theorem tolerance_agreement_join {cells D : List ℕ}
    (hneC : cells ≠ []) (hsorted : cells.Pairwise (· < ·))
    (hmemC : ∀ k ∈ cells, k ∈ List.range' 1 9)
    (hneD : D ≠ []) (hmemD : ∀ k ∈ D, k ∈ List.range' 1 9) :
    isCorrectWithTolerance (joinComma (D.map digitStr)) (.arr (cells.map digitStr))
      = isAnswerCorrect (.str (joinComma (D.map digitStr)))
          (.arr (cells.map digitStr)) := by
  have hfixD := joinDigits_fixed hmemD
  have hfixC := joinDigits_fixed hmemC
  have hnormC := normalizeAnswer_joinDigits hsorted hmemC
  have hnormS : normalizeAnswer (.str (joinComma (D.map digitStr)))
      = joinComma (D.map digitStr) := by
    show jsUpper (jsTrim (joinComma (D.map digitStr))) = joinComma (D.map digitStr)
    rw [hfixD.2, hfixD.1]
  have hL : isCorrectWithTolerance (joinComma (D.map digitStr))
        (.arr (cells.map digitStr))
      = if joinComma (D.map digitStr) = joinComma (cells.map digitStr) then true
        else decide (errorCount (jsSet (cells.map (fun k : ℕ => (k : ℚ))))
          (jsSet (D.map (fun k : ℕ => (k : ℚ)))) ≤ 1) := by
    unfold isCorrectWithTolerance
    dsimp only
    rw [hfixD.1, hfixC.1, evalNums_joinDigits hneC hmemC,
      evalNums_joinDigits hneD hmemD]
    have hguard : ¬(cells.map (fun k : ℕ => (k : ℚ)) = []
        ∨ D.map (fun k : ℕ => (k : ℚ)) = []) := by
      simp [hneC, hneD]
    rw [if_neg hguard]
  have hR : isAnswerCorrect (.str (joinComma (D.map digitStr)))
        (.arr (cells.map digitStr))
      = if joinComma (D.map digitStr) = joinComma (cells.map digitStr) then true
        else decide (errorCount (jsSet (cells.map (fun k : ℕ => (k : ℚ))))
          (jsSet (D.map (fun k : ℕ => (k : ℚ)))) ≤ 1) := by
    unfold isAnswerCorrect
    dsimp only
    rw [hnormS, hnormC, parsePositiveNums_joinDigits hneC hmemC,
      parsePositiveNums_joinDigits hneD hmemD]
    have hguard : ¬(cells.map (fun k : ℕ => (k : ℚ)) = []
        ∨ D.map (fun k : ℕ => (k : ℚ)) = []) := by
      simp [hneC, hneD]
    rw [if_neg hguard]
  rw [hL, hR]

/-- On a parsed answer containing no cell digit, both the eval runner and
the verifier reject. -/
theorem tolerance_agreement_nodigit {cells : List ℕ} {p : JStr}
    (hneC : cells ≠ []) (hsorted : cells.Pairwise (· < ·))
    (hmemC : ∀ k ∈ cells, k ∈ List.range' 1 9)
    (hdf : ∀ c ∈ p, isDigit19 c = false)
    (hfix : jsUpper (jsTrim p) = p) :
    isCorrectWithTolerance p (.arr (cells.map digitStr)) = false
    ∧ isAnswerCorrect (.str p) (.arr (cells.map digitStr)) = false := by
  have hup : jsUpper p = p := by
    conv_lhs => rw [← hfix]
    rw [jsUpper_jsUpper, hfix]
  have hneq : p ≠ joinComma (cells.map digitStr) := by
    obtain ⟨k, hkmem⟩ := List.exists_mem_of_ne_nil cells hneC
    intro hpe
    have hk : k ∈ List.range' 1 9 := hmemC k hkmem
    have hc0 : Char.ofNat (48 + k) ∈ joinComma (cells.map digitStr) :=
      mem_joinComma_of_mem (List.mem_map_of_mem digitStr hkmem)
        (by simp [digitStr])
    rw [← hpe] at hc0
    have h1 := hdf _ hc0
    have h2 := (digitStr_facts k hk).2.2.2.2.2 (Char.ofNat (48 + k))
      (by simp [digitStr])
    rw [h1] at h2
    exact Bool.false_ne_true h2
  constructor
  · unfold isCorrectWithTolerance
    dsimp only
    rw [hup, (joinDigits_fixed hmemC).1, if_neg hneq,
      evalNums_joinDigits hneC hmemC]
    by_cases hpn : (((splitComma p).map jsTrim).filter
        (fun m => !m.isEmpty)).filterMap jsNumber = []
    · rw [if_pos (Or.inr hpn)]
    · have hguard : ¬(cells.map (fun k : ℕ => (k : ℚ)) = []
          ∨ (((splitComma p).map jsTrim).filter
              (fun m => !m.isEmpty)).filterMap jsNumber = []) := by
        simp [hneC, hpn]
      rw [if_neg hguard]
      have hz := evalNums_of_no_digit19 hdf
      rw [jsSet_of_all_eq hpn hz, decide_eq_false_iff_not]
      apply errorCount_pos_zero
      · simp [hneC]
      · intro q hq
        obtain ⟨k, hk, hkq⟩ := List.mem_map.mp hq
        have := (mem_range19.mp (hmemC k hk)).1
        rw [← hkq]
        exact_mod_cast Nat.pos_of_ne_zero (by omega)
  · unfold isAnswerCorrect
    dsimp only
    have hnormS : normalizeAnswer (.str p) = p := hfix
    rw [hnormS, normalizeAnswer_joinDigits hsorted hmemC, if_neg hneq,
      parsePositiveNums_joinDigits hneC hmemC,
      parsePositiveNums_of_no_digit19 hdf,
      if_pos (Or.inr (rfl : ([] : List ℚ) = []))]

/-- For every well-formed select-all challenge (sorted distinct cell digits
as the correct answer) and every raw agent response, the eval runner's
scoring of the parsed answer equals the verifier's scoring of the same
string submitted against the challenge. -/
theorem tolerance_agreement {cells : List ℕ} (hne : cells ≠ [])
    (hsorted : cells.Pairwise (· < ·))
    (hmem : ∀ k ∈ cells, k ∈ List.range' 1 9) (raw : JStr) :
    isCorrectWithTolerance (parseAnswer raw none) (.arr (cells.map digitStr))
      = isAnswerCorrect (.str (parseAnswer raw none))
          (.arr (cells.map digitStr)) := by
  have hparse : parseAnswer raw none = parseAnswerGrid (jsUpper (jsTrim raw)) := rfl
  rcases parseAnswerGrid_spec (jsUpper (jsTrim raw)) with
    ⟨D, hneD, hmemD, _, hgrid⟩ | ⟨hdf, hgrid⟩
  · rw [hparse, hgrid]
    exact tolerance_agreement_join hne hsorted hmem hneD hmemD
  · rw [hparse, hgrid]
    have hfix : jsUpper (jsTrim (jsUpper (jsTrim raw))) = jsUpper (jsTrim raw) := by
      rw [jsTrim_jsUpper, jsTrim_jsTrim, jsUpper_jsUpper]
    obtain ⟨h1, h2⟩ := tolerance_agreement_nodigit hne hsorted hmem hdf hfix
    rw [h1, h2]

/-- C5: for every well-formed select-all challenge in an eval run and every
agent response, the harness scores the parsed answer with the same
±1-total-error tolerance rule as the verifier uses for select-all
challenges; in particular, for a challenge with correctAnswer
["1","4","7"] and an agent whose response parses to "1,4", the recorded
per-challenge result has correct = true. -/
theorem C5_eval_tolerance :
    (∀ cells : List ℕ, cells ≠ [] → cells.Pairwise (· < ·) →
      (∀ k ∈ cells, k ∈ List.range' 1 9) → ∀ raw : JStr,
      isCorrectWithTolerance (parseAnswer raw none) (.arr (cells.map digitStr))
        = isAnswerCorrect (.str (parseAnswer raw none))
            (.arr (cells.map digitStr)))
    ∧ ∃ run : EvalRun,
        runEvalOnChallenges stubAgent14 (jstr "r") (jstr "t")
            (jstr "illusion-faces") [chCells147] [mEval] = .ok run
        ∧ Option.map (fun mr : ModelResult =>
              Option.map (fun r : EvalChallengeResult => (r.modelAnswer, r.correct))
                mr.challenges[0]?)
            run.modelResults[0]?
          = some (some (jstr "1,4", true)) := by
  constructor
  · intro cells hne hsorted hmem raw
    exact tolerance_agreement hne hsorted hmem raw
  · exact ⟨_, rfl, by decide⟩

theorem C5_eval_tolerance_witness :
    isAnswerCorrect (.str (parseAnswer (jstr "1,4") none))
        (.arr (([1, 4, 7] : List ℕ).map digitStr)) = true := by
  rw [← C5_eval_tolerance.1 [1, 4, 7] (by decide) (by decide) (by decide)
    (jstr "1,4")]
  decide

end Latcha
